import Mathlib

/-!
Verification development for the Afterpiece schema-graph construction and
constant-resolution core.

The definitions below are a shallow embedding of:
* `src/v2/parser/apis/constant/constant.go` (constant evaluation, enum grouping,
  explicit/auto export parsing),
* the `clientgen` type registry (`getNamedTypes`, `Visit`, `visitNamed`,
  `IsRecursiveRef`),
* the `legacymeta` builder (`decl`, `schemaType`, `addEnumToMeta`).

Go machine integers (`int64`) are modelled as `Int` with explicit two's
complement wrapping where the Go operation wraps.  Go slice indexing that can
panic, and other Go run-time panics reachable in the embedded code, are
modelled with `Except`.  Recursions that terminate in Go through memoization
tables (seen-sets, declaration maps) are given an explicit fuel parameter in
Lean; with sufficient fuel the embedding computes exactly what the Go code
computes, and general theorems quantify over all fuels.
-/

namespace Afterpiece

/-! ## The v2 internal schema type model (`encr.dev/v2/internals/schema`) -/

/-- Builtin type kinds of the v2 schema package (closed enum in Go). -/
inductive BuiltinKind where
  | bool | int | int8 | int16 | int32 | int64
  | uint | uint8 | uint16 | uint32 | uint64
  | float32 | float64 | string | bytes
  | time | uuid | json | userID
deriving DecidableEq, Repr

/-- The identifying information carried by a `schemav2.NamedType`
(`DeclInfo.File.Pkg.ImportPath`, `DeclInfo.Name`, `DeclInfo.Doc`).
`DeclInfo` is modelled as always present (in the parser output it is);
the `DeclInfo != nil` guard in `tryGroupAsEnum` therefore always takes
its non-nil branch in this model. -/
structure NamedInfo where
  pkgPath : String
  name : String
  doc : String
deriving DecidableEq, Repr

/-- The v2 internal `schema.Type` interface (`encr.dev/v2/internals/schema`).
A struct field is the triple (name, doc, type); `name = none` models an
anonymous (embedded) field, matching `StructField.IsAnonymous`.  Struct
tags and wire-location attributes are not inspected by the embedded code
paths under verification and are not modelled.  `len` on `list` models
`ListType.Len` (negative for slices, `>= 0` for arrays).  `other` models
the remaining type shapes (func, interface, ...) that fall into
`schemaType`'s `default` branch. -/
inductive V2Type where
  | builtin (kind : BuiltinKind)
  | named (info : NamedInfo) (typeArgs : List V2Type)
  | struct (fields : List (Option String × String × V2Type))
  | list (len : Int) (elem : V2Type)
  | map (key value : V2Type)
  | pointer (elem : V2Type)
  | option (value : V2Type)
  | typeParamRef (declKey : String × String) (index : Nat)
  | other
deriving Repr

/-! ## Constant values (`src/v2/parser/apis/constant/constant.go`) -/

/-- `constant.ConstantKind`: iota order String=0, Int, Bool, Float. -/
inductive ConstantKind where
  | string | int | bool | float
deriving DecidableEq, Repr

/-- `constant.ConstantValue`.  The Go zero value `ConstantValue{}` has
`Kind = ConstantString` (= 0) and empty payloads; the defaults below mirror
that.  `floatValue` is a Lean `Float`, i.e. IEEE-754 binary64 exactly like
Go's `float64`. -/
structure ConstantValue where
  strValue : String := ""
  intValue : Int := 0
  boolValue : Bool := false
  floatValue : Float := 0
  kind : ConstantKind := ConstantKind.string

/-- The empty / zero-kind result `ConstantValue{}`. -/
def ConstantValue.empty : ConstantValue := {}

/-! ## The Go AST fragment consumed by the constant evaluator -/

/-- `go/token` literal kinds appearing on `ast.BasicLit`. -/
inductive LitKind where
  | intLit | floatLit | imagLit | charLit | stringLit
deriving DecidableEq, Repr

/-- The binary/unary operator tokens the evaluator inspects; `otherOp`
stands for every other token. -/
inductive GoOp where
  | add | sub | mul | quo | rem
  | and | or | xor | shl | shr
  | otherOp
deriving DecidableEq, Repr

/-- The `ast.Expr` shapes distinguished by `evaluateExprWithSpecIndex`.
`otherExpr` models every expression shape not matched by the switch
(parenthesized expressions, selectors, ...). -/
inductive GoExpr where
  | basicLit (kind : LitKind) (value : String)
  | ident (name : String)
  | unary (op : GoOp) (x : GoExpr)
  | binary (op : GoOp) (x y : GoExpr)
  | call (fn : GoExpr) (args : List GoExpr)
  | otherExpr
deriving Repr

/-! ### Modelling of the strconv library calls -/

/-- Model of `strconv.ParseInt(s, 10, 64)`: an optional sign followed by at
least one decimal digit, with the resulting value required to fit in
`int64`; every other input is an error (`none`).  (Base 10 is explicit in
the call, so no hex/octal/binary prefixes and no digit separators are
accepted.) -/
def parseInt64 (s : String) : Option Int :=
  let chars := s.toList
  let (sign, digits) :=
    match chars with
    | '+' :: rest => ((1 : Int), rest)
    | '-' :: rest => ((-1 : Int), rest)
    | rest => ((1 : Int), rest)
  if digits.isEmpty then none
  else if digits.all (fun c => c.isDigit) then
    let mag : Int := digits.foldl (fun acc c => acc * 10 + (c.toNat - '0'.toNat : Nat)) 0
    let v := sign * mag
    if -(2 ^ 63) ≤ v ∧ v < 2 ^ 63 then some v else none
  else none

/-- Model of `strconv.Unquote` restricted to the escape-free fragment:
a double-quoted or backquoted string whose interior contains neither an
escape nor a delimiter unquotes to its interior; escape sequences (which
the claims never exercise) and all malformed inputs are mapped to `none`.
In the Go code a `none` answer only routes evaluation to the manual
`Value[1:len-1]` fallback slice. -/
def goUnquote (s : String) : Option String :=
  let cs := s.toList
  if 2 ≤ cs.length then
    let first := cs.head!
    let last := cs.getLast!
    let inner := (cs.drop 1).take (cs.length - 2)
    if first = '"' ∧ last = '"' ∧ inner.all (fun c => c ≠ '\\' ∧ c ≠ '"') then
      some (String.mk inner)
    else if first = '`' ∧ last = '`' ∧ inner.all (fun c => c ≠ '`') then
      some (String.mk inner)
    else none
  else none

/-- Model of `strconv.ParseFloat(s, 64)` restricted to plain decimal
literals `digits[.digits]`; other forms (exponents, hex floats, ...) are
`none`.  The claims never depend on float payloads. -/
def parseFloat64 (s : String) : Option Float :=
  let parts := s.splitOn "."
  match parts with
  | [ip] =>
    if ip.length > 0 ∧ ip.toList.all Char.isDigit then
      some (Float.ofNat ip.toNat!)
    else none
  | [ip, fp] =>
    if ip.length > 0 ∧ fp.length > 0 ∧ ip.toList.all Char.isDigit ∧
        fp.toList.all Char.isDigit then
      some (Float.ofScientific (ip.toNat! * 10 ^ fp.length + fp.toNat!) true fp.length)
    else none
  | _ => none

/-! ### int64 arithmetic -/

/-- Two's complement wrap of an integer into the `int64` range, modelling
Go's wrapping arithmetic. -/
def wrap64 (x : Int) : Int := (x + 2 ^ 63).emod (2 ^ 64) - 2 ^ 63

/-- Go's `uint(x)` conversion of an `int64` shift count: the value
reinterpreted as an unsigned 64-bit integer. -/
def toShiftCount (x : Int) : Nat := (x.emod (2 ^ 64)).toNat

/-- Go `<<` on `int64`: shift counts of 64 or more yield 0, otherwise the
product wraps. -/
def goShl (x : Int) (n : Nat) : Int :=
  if n ≥ 64 then 0 else wrap64 (x * 2 ^ n)

/-- Go `>>` (arithmetic shift) on `int64`: floor division by the power of
two, with saturation at 0 / -1 for large counts. -/
def goShr (x : Int) (n : Nat) : Int :=
  if n ≥ 64 then (if x < 0 then -1 else 0) else Int.fdiv x (2 ^ n)

/-! ### The evaluator -/

/-- The one Go run-time fault reachable inside the evaluator: the manual
slice `lit.Value[1 : len(lit.Value)-1]` taken when `strconv.Unquote`
fails, which panics when the literal text is shorter than 2 bytes. -/
inductive EvalPanic where
  | sliceBounds
deriving DecidableEq, Repr

/-- `evaluateExprWithSpecIndex` (constant.go:313-411): recursively
evaluates an expression, with `iota` evaluating to the spec index.
Faithful points: string literals that fail to unquote are sliced manually
(panicking on degenerate literals, modelled as `Except.error`); integer
`/` and `%` with zero right operand fall through to the zero value;
`len(...)` applied through an identifier evaluates to integer 0; all
unrecognized shapes evaluate to the zero value `ConstantValue{}`. -/
def evaluateExprWithSpecIndex (expr : GoExpr) (specIndex : Int) :
    Except EvalPanic ConstantValue :=
  match expr with
  | GoExpr.basicLit kind value =>
    if kind = LitKind.stringLit then
      match goUnquote value with
      | some val => Except.ok { strValue := val, kind := ConstantKind.string }
      | none =>
        -- Go: lit.Value[1 : len(lit.Value)-1]; panics if len < 2.
        if value.toList.length < 2 then Except.error EvalPanic.sliceBounds
        else
          Except.ok { strValue := String.mk ((value.toList.drop 1).take (value.toList.length - 2)),
                      kind := ConstantKind.string }
    else if kind = LitKind.intLit then
      match parseInt64 value with
      | some val => Except.ok { intValue := val, kind := ConstantKind.int }
      | none => Except.ok ConstantValue.empty
    else if kind = LitKind.floatLit then
      match parseFloat64 value with
      | some val => Except.ok { floatValue := val, kind := ConstantKind.float }
      | none => Except.ok ConstantValue.empty
    else if kind = LitKind.charLit then
      Except.ok { strValue := value, kind := ConstantKind.string }
    else
      Except.ok ConstantValue.empty
  | GoExpr.ident name =>
    if name = "iota" then
      Except.ok { intValue := specIndex, kind := ConstantKind.int }
    else if name = "true" then
      Except.ok { boolValue := true, kind := ConstantKind.bool }
    else if name = "false" then
      Except.ok { boolValue := false, kind := ConstantKind.bool }
    else
      Except.ok ConstantValue.empty
  | GoExpr.unary op x =>
    if op = GoOp.sub then do
      let val ← evaluateExprWithSpecIndex x specIndex
      if val.kind = ConstantKind.int then
        pure { intValue := wrap64 (-val.intValue), kind := ConstantKind.int }
      else if val.kind = ConstantKind.float then
        pure { floatValue := -val.floatValue, kind := ConstantKind.float }
      else
        pure ConstantValue.empty
    else
      Except.ok ConstantValue.empty
  | GoExpr.binary op x y => do
    let left ← evaluateExprWithSpecIndex x specIndex
    let right ← evaluateExprWithSpecIndex y specIndex
    if left.kind = ConstantKind.int ∧ right.kind = ConstantKind.int then
      match op with
      | GoOp.add => pure { intValue := wrap64 (left.intValue + right.intValue), kind := ConstantKind.int }
      | GoOp.sub => pure { intValue := wrap64 (left.intValue - right.intValue), kind := ConstantKind.int }
      | GoOp.mul => pure { intValue := wrap64 (left.intValue * right.intValue), kind := ConstantKind.int }
      | GoOp.quo =>
        if right.intValue ≠ 0 then
          pure { intValue := wrap64 (Int.tdiv left.intValue right.intValue), kind := ConstantKind.int }
        else pure ConstantValue.empty
      | GoOp.rem =>
        if right.intValue ≠ 0 then
          pure { intValue := Int.tmod left.intValue right.intValue, kind := ConstantKind.int }
        else pure ConstantValue.empty
      | GoOp.and => pure { intValue := Int.land left.intValue right.intValue, kind := ConstantKind.int }
      | GoOp.or => pure { intValue := Int.lor left.intValue right.intValue, kind := ConstantKind.int }
      | GoOp.xor => pure { intValue := Int.xor left.intValue right.intValue, kind := ConstantKind.int }
      | GoOp.shl => pure { intValue := goShl left.intValue (toShiftCount right.intValue), kind := ConstantKind.int }
      | GoOp.shr => pure { intValue := goShr left.intValue (toShiftCount right.intValue), kind := ConstantKind.int }
      | GoOp.otherOp => pure ConstantValue.empty
    else if left.kind = ConstantKind.float ∧ right.kind = ConstantKind.float then
      match op with
      | GoOp.add => pure { floatValue := left.floatValue + right.floatValue, kind := ConstantKind.float }
      | GoOp.sub => pure { floatValue := left.floatValue - right.floatValue, kind := ConstantKind.float }
      | GoOp.mul => pure { floatValue := left.floatValue * right.floatValue, kind := ConstantKind.float }
      | GoOp.quo => pure { floatValue := left.floatValue / right.floatValue, kind := ConstantKind.float }
      | _ => pure ConstantValue.empty
    else
      pure ConstantValue.empty
  | GoExpr.call fn _args =>
    match fn with
    | GoExpr.ident fname =>
      if fname = "len" then Except.ok { intValue := 0, kind := ConstantKind.int }
      else Except.ok ConstantValue.empty
    | _ => Except.ok ConstantValue.empty
  | GoExpr.otherExpr => Except.ok ConstantValue.empty

/-- `evaluateConstantWithSpecIndex` (constant.go:293-310): picks the value
expression at `valueIndex` if present; a missing expression defaults to
the spec index as an integer.  (The `lastTypeExpr` parameter exists in the
Go signature but is unused by the body; it is kept for fidelity.) -/
def evaluateConstantWithSpecIndex (values : List GoExpr) (valueIndex : Nat)
    (specIndex : Int) (_lastTypeExpr : Option Nat) :
    Except EvalPanic ConstantValue :=
  match values[valueIndex]? with
  | none => Except.ok { intValue := specIndex, kind := ConstantKind.int }
  | some expr => evaluateExprWithSpecIndex expr specIndex

/-! ## Constants, enums and the two parse entry points -/

/-- Source location (`v1schema.Loc`) restricted to the components the
embedded code reads or that the claims mention; line/column fields are
byproducts of the same positions and are not modelled separately. -/
structure Loc where
  pkgPath : String := ""
  pkgName : String := ""
  filename : String := ""
  startPos : Int := 0
  endPos : Int := 0
deriving DecidableEq, Repr

/-- `constant.Constant` (the `errs` handle carries no data). -/
structure Constant where
  name : String
  typ : Option V2Type
  value : ConstantValue
  doc : String
  loc : Loc
  pkgName : String
  pkgPath : String

/-- `constant.Enum`. -/
structure Enum where
  name : String
  underlyingType : Option V2Type
  members : List Constant
  doc : String
  loc : Loc
  pkgName : String
  pkgPath : String

/-- `typesEqual` (constant.go:477-495).  Note that the Go code only checks
the coarse shape: any two builtin types compare equal (regardless of
kind), and any two named types compare equal (regardless of declaration
identity or type arguments). -/
def typesEqual (t1 t2 : Option V2Type) : Bool :=
  match t1, t2 with
  | none, none => true
  | none, some _ => false
  | some _, none => false
  | some u1, some u2 =>
    match u1, u2 with
    | V2Type.builtin _, V2Type.builtin _ => true
    | V2Type.named _ _, V2Type.named _ _ => true
    | _, _ => false

/-- `tryGroupAsEnum` (constant.go:413-474): groups the ordered sibling
constants of one block into an `Enum` when there are at least two, all
carry a non-null type, and all types compare equal under `typesEqual`.
The enum name prefers the named type's declaration name (and doc);
otherwise it is derived from the first constant's identifier, stripping a
single trailing decimal digit when every member shares the resulting
stem. -/
def tryGroupAsEnum (constants : List Constant) (pkgPath pkgName doc : String) :
    Option Enum :=
  match constants with
  | [] => none
  | c0 :: rest =>
    if constants.length < 2 then none
    else match c0.typ with
    | none => none
    | some firstType =>
      if rest.all (fun c => c.typ.isSome && typesEqual (some firstType) c.typ) then
        let enumName0 : String :=
          match firstType with
          | V2Type.named info _ => info.name
          | _ => ""
        let enumDoc : String :=
          match firstType with
          | V2Type.named info _ => if info.doc ≠ "" then info.doc else doc
          | _ => doc
        let enumName : String :=
          if enumName0 = "" then
            -- Fallback: derive from constant name stem.
            let n0 := c0.name
            let idx := n0.length - 1
            if idx > 0 ∧ (n0.toList.getLastD ' ').isDigit then
              let stem := String.mk (n0.toList.take idx)
              let allSameStem := rest.all (fun c =>
                c.name.length ≥ idx ∧ String.mk (c.name.toList.take idx) = stem)
              if allSameStem then stem else n0
            else n0
          else enumName0
        let locLast := ((c0 :: rest).getLast (by simp)).loc
        some { name := enumName
               underlyingType := some firstType
               members := constants
               doc := enumDoc
               loc := { c0.loc with endPos := locLast.endPos }
               pkgName := pkgName
               pkgPath := pkgPath }
      else none

/-- Export-directive errors collected into `d.Errs` by the constant
parser (`src/unnamed/part_006`). -/
inductive ParseErr where
  | invalidConstant
  | unexportedConstant (name : String)
deriving DecidableEq, Repr

/-- A parse result (`[]any` holding `*Constant` and `*Enum` values). -/
inductive ParseResult where
  | constRes (c : Constant)
  | enumRes (e : Enum)

/-- `ast.Ident.IsExported`: first character upper case (the claims only
exercise ASCII identifiers). -/
def isExportedName (s : String) : Bool :=
  match s.toList with
  | [] => false
  | c :: _ => c.isUpper

/-- One identifier of a `ValueSpec`, with its source span. -/
structure GoIdent where
  name : String
  pos : Int := 0
  endPos : Int := 0
deriving DecidableEq, Repr

/-- A spec of a `GenDecl`: either an `*ast.ValueSpec` (names, optional
type expression, value expressions) or some other spec shape, which the
parser skips.  Type expressions are opaque to this code (they are passed
to the external schema parser), so they are modelled by an opaque tag. -/
inductive GoSpec where
  | valueSpec (names : List GoIdent) (typ : Option Nat) (values : List GoExpr)
  | otherSpec

/-- The declaration token of a `GenDecl`. -/
inductive DeclTok where
  | constTok | varTok | typeTok | importTok
deriving DecidableEq, Repr

/-- `ast.GenDecl` as consumed by the constant parser. -/
structure GenDecl where
  tok : DeclTok
  specs : List GoSpec

/-- `constant.ParseData`.  The schema parser is an external collaborator:
it is modelled as an oracle from (opaque) type expressions to v2 types,
`none` standing for the nil `*schema.Parser` or a nil parse result. -/
structure ParseData where
  schema : Option (Nat → Option V2Type)
  file : Loc            -- pkgPath / pkgName / filename of d.File
  decl : GenDecl
  doc : String

/-- The per-name body shared by both parse modes: builds one `Constant`
from an identifier, the inherited type, and the evaluated value. -/
def mkConstant (d : ParseData) (name : GoIdent) (typ : Option V2Type)
    (value : ConstantValue) : Constant :=
  { name := name.name
    typ := typ
    value := value
    doc := d.doc
    loc := { pkgPath := d.file.pkgPath
             pkgName := d.file.pkgName
             filename := d.file.filename
             startPos := name.pos
             endPos := name.endPos }
    pkgName := d.file.pkgName
    pkgPath := d.file.pkgPath }

/-- The name loop of one `ValueSpec` in explicit-export mode
(constant.go:139-177): a non-exported name produces an
`unexportedConstant` error and is skipped (`continue`); an exported name
is evaluated and collected. -/
def parseNamesExplicit (d : ParseData) (values : List GoExpr) (specIndex : Nat)
    (lastType : Option V2Type) (lastTypeExpr : Option Nat) :
    List (Nat × GoIdent) → Except EvalPanic (List ParseErr × List Constant)
  | [] => Except.ok ([], [])
  | (i, name) :: more => do
    if !isExportedName name.name then
      let (errs, cs) ← parseNamesExplicit d values specIndex lastType lastTypeExpr more
      pure (ParseErr.unexportedConstant name.name :: errs, cs)
    else
      let value ← evaluateConstantWithSpecIndex values i specIndex lastTypeExpr
      let c := mkConstant d name lastType value
      let (errs, cs) ← parseNamesExplicit d values specIndex lastType lastTypeExpr more
      pure (errs, c :: cs)

/-- The spec loop of `Parse` (constant.go:127-178): explicit-export mode.
Walks the specs in order, carrying (specIndex, lastType, lastTypeExpr)
for type inheritance across specs. -/
def parseSpecsExplicit (d : ParseData) :
    List GoSpec → Nat → Option V2Type → Option Nat →
    Except EvalPanic (List ParseErr × List Constant)
  | [], _, _, _ => Except.ok ([], [])
  | spec :: rest, specIndex, lastType, lastTypeExpr =>
    match spec with
    | GoSpec.otherSpec => parseSpecsExplicit d rest (specIndex + 1) lastType lastTypeExpr
    | GoSpec.valueSpec names typ values => do
      let lastTypeExpr := if typ.isSome then typ else lastTypeExpr
      let lastType := match typ with
        | some te => (match d.schema with
          | some parse => parse te
          | none => none)
        | none => lastType
      let (errs1, cs1) ← parseNamesExplicit d values specIndex lastType lastTypeExpr
        names.enum
      let (errs2, cs2) ← parseSpecsExplicit d rest (specIndex + 1) lastType lastTypeExpr
      pure (errs1 ++ errs2, cs1 ++ cs2)

/-- The name loop of one `ValueSpec` in auto-export mode
(constant.go:232-269): identical to the explicit loop except that a
non-exported name is skipped silently (`continue`) — the shared error
list is available but never appended to. -/
def parseNamesAuto (d : ParseData) (values : List GoExpr) (specIndex : Nat)
    (lastType : Option V2Type) (lastTypeExpr : Option Nat) :
    List (Nat × GoIdent) → Except EvalPanic (List ParseErr × List Constant)
  | [] => Except.ok ([], [])
  | (i, name) :: more => do
    if !isExportedName name.name then
      parseNamesAuto d values specIndex lastType lastTypeExpr more
    else
      let value ← evaluateConstantWithSpecIndex values i specIndex lastTypeExpr
      let c := mkConstant d name lastType value
      let (errs, cs) ← parseNamesAuto d values specIndex lastType lastTypeExpr more
      pure (errs, c :: cs)

/-- The spec loop of `ParseWithoutDirective` (constant.go:220-270). -/
def parseSpecsAuto (d : ParseData) :
    List GoSpec → Nat → Option V2Type → Option Nat →
    Except EvalPanic (List ParseErr × List Constant)
  | [], _, _, _ => Except.ok ([], [])
  | spec :: rest, specIndex, lastType, lastTypeExpr =>
    match spec with
    | GoSpec.otherSpec => parseSpecsAuto d rest (specIndex + 1) lastType lastTypeExpr
    | GoSpec.valueSpec names typ values => do
      let lastTypeExpr := if typ.isSome then typ else lastTypeExpr
      let lastType := match typ with
        | some te => (match d.schema with
          | some parse => parse te
          | none => none)
        | none => lastType
      let (errs1, cs1) ← parseNamesAuto d values specIndex lastType lastTypeExpr
        names.enum
      let (errs2, cs2) ← parseSpecsAuto d rest (specIndex + 1) lastType lastTypeExpr
      pure (errs1 ++ errs2, cs1 ++ cs2)

/-- Packaging shared by both parse modes (constant.go:180-196): an empty
constant list yields no results; otherwise the block either groups into
one enum or each constant is returned standalone. -/
def packageResults (d : ParseData) (constants : List Constant) : List ParseResult :=
  if constants.isEmpty then []
  else match tryGroupAsEnum constants d.file.pkgPath d.file.pkgName d.doc with
  | some e => [ParseResult.enumRes e]
  | none => constants.map ParseResult.constRes

/-- `Parse` (constant.go:107-197): explicit-export mode.  A non-`const`
declaration is an `invalidConstant` error with no results. -/
def Parse (d : ParseData) : Except EvalPanic (List ParseErr × List ParseResult) :=
  if d.decl.tok ≠ DeclTok.constTok then
    Except.ok ([ParseErr.invalidConstant], [])
  else do
    let (errs, constants) ← parseSpecsExplicit d d.decl.specs 0 none none
    pure (errs, packageResults d constants)

/-- `ParseWithoutDirective` (constant.go:201-289): auto-export mode.  A
non-`const` declaration yields no results and, unlike `Parse`, no error;
non-exported names are silently skipped. -/
def ParseWithoutDirective (d : ParseData) :
    Except EvalPanic (List ParseErr × List ParseResult) :=
  if d.decl.tok ≠ DeclTok.constTok then
    Except.ok ([], [])
  else do
    let (errs, constants) ← parseSpecsAuto d d.decl.specs 0 none none
    pure (errs, packageResults d constants)

/-! ## The exported proto metadata model (`proto/afterpiece/parser/...`) -/

/-- Proto `schema.Type` (a nullable pointer in Go, hence the `nil`
constructor).  Struct fields are modelled as (name, type) pairs — the
remaining proto `Field` attributes are not read by the embedded code. -/
inductive SType where
  | nil
  | builtin (kind : Nat)
  | named (id : Nat) (typeArguments : List SType)
  | struct (fields : List (String × SType))
  | list (elem : SType)
  | map (key value : SType)
  | pointer (base : SType)
  | option (value : SType)
  | config (elem : SType) (isValuesList : Bool)
  | union (types : List SType)
  | typeParameter (declId : Nat) (paramIdx : Nat)
  | literal
deriving Repr

/-- Proto `schema.Decl`.  Of the `Loc` message only `PkgName` is read by
the registry (as the namespace); it is inlined as `locPkgName`. -/
structure SDecl where
  id : Nat
  name : String
  typ : SType
  typeParams : List String
  doc : String
  locPkgName : String
deriving Repr

/-- Proto `ConstantDecl` value oneof (string / int / bool — no float). -/
inductive CValue where
  | strValue (s : String)
  | intValue (i : Int)
  | boolValue (b : Bool)
deriving DecidableEq, Repr

/-- Proto `schema.ConstantDecl`. -/
structure ConstantDecl where
  name : String
  doc : String
  pkgName : String
  typ : SType := SType.nil
  value : Option CValue := none
deriving Repr

/-- Proto `schema.EnumDecl`. -/
structure EnumDecl where
  name : String
  doc : String
  pkgName : String
  underlyingType : SType := SType.nil
  members : List ConstantDecl := []
deriving Repr

/-- One RPC of a service: access classification plus the three optional
schemas the registry traverses. -/
structure Rpc where
  accessIsPrivate : Bool
  handshakeSchema : SType := SType.nil
  requestSchema : SType := SType.nil
  responseSchema : SType := SType.nil

/-- A service with its RPCs. -/
structure Svc where
  name : String
  rpcs : List Rpc

/-- The auth handler's parameter schema (`md.AuthHandler.Params`; a nil
`Params` pointer is `SType.nil`, which the visitor ignores). -/
structure AuthHandlerM where
  params : SType := SType.nil

/-- `meta.Data` restricted to the fields `getNamedTypes` reads. -/
structure MetaData where
  decls : List SDecl
  constants : List ConstantDecl := []
  enums : List EnumDecl := []
  svcs : List Svc := []
  authHandler : Option AuthHandlerM := none

/-! ## The clientgen type registry (`src/unnamed/part_001`) -/

/-- Lookup in an association-list model of a Go map whose values are
slices; a missing key is the nil slice. -/
def assocFind : List (String × List α) → String → Option (List α)
  | [], _ => none
  | p :: rest, k => if p.1 = k then some p.2 else assocFind rest k

/-- `m[k] = append(m[k], x)` on the association-list model: the entry is
updated in place if present, appended otherwise (first-seen key order). -/
def assocAppend (l : List (String × List α)) (k : String) (x : α) :
    List (String × List α) :=
  match l with
  | [] => [(k, [x])]
  | p :: rest => if p.1 = k then (p.1, p.2 ++ [x]) :: rest
                 else p :: assocAppend rest k x

/-- `m[k] = xs` for a key already present (leaves the list unchanged if
the key is absent). -/
def assocSet (l : List (String × List α)) (k : String) (xs : List α) :
    List (String × List α) :=
  match l with
  | [] => []
  | p :: rest => if p.1 = k then (p.1, xs) :: rest else p :: assocSet rest k xs

/-- `clientgen.typeRegistry`.  The seen-set and the reference-edge map are
modelled as characteristic functions. -/
structure TypeRegistry where
  md : MetaData
  namespaces : List (String × List SDecl)
  seenDecls : Nat → Bool
  declRefs : Nat → Nat → Bool
  currDecl : Option SDecl
  constants : List (String × List ConstantDecl)
  enums : List (String × List EnumDecl)

/-- Record the direct edge `from → to` (`v.declRefs[from][to] = true`). -/
def addRef (refs : Nat → Nat → Bool) (frm tgt : Nat) : Nat → Nat → Bool :=
  fun a b => (a = frm && b = tgt) || refs a b

/-- Copy every outbound edge of `to` into `frm`'s edge set
(`for to2 := range declRefs[to] { declRefs[from][to2] = true }`). -/
def copyRefs (refs : Nat → Nat → Bool) (frm tgt : Nat) : Nat → Nat → Bool :=
  fun a b => if a = frm then refs a b || refs tgt b else refs a b

/-- The five mutually recursive traversal entry points of the registry
(`Visit`, its struct-field and type-list loops, `visitNamed`,
`visitDecl`), reified as one job type so the traversal is a single
structurally recursive function (which the kernel can evaluate on
concrete inputs). -/
inductive VJob where
  | typeJ (t : SType)
  | fieldsJ (fs : List (String × SType))
  | listJ (ts : List SType)
  | namedJ (tgt : Nat) (args : List SType)
  | declJ (d : SDecl)

/-- The combined traversal of the registry (part_001:112-193).  `fuel` is
Lean termination bookkeeping only and is peeled at every step: the Go
recursion terminates through the seen-set; every general theorem below
quantifies over all fuels, and concrete runs are evaluated with ample
fuel.

* `typeJ` is `typeRegistry.Visit` (part_001:112-148): a recursive walk
  over a proto type by tag; builtin, type-parameter and literal nodes are
  leaves, and a nil type pointer does nothing.
* `fieldsJ` / `listJ` are the struct-field loop and the union-variant /
  type-argument loops of the same function.
* `namedJ` is `typeRegistry.visitNamed` (part_001:168-193): records the
  direct edge from the current declaration, descends into the target
  declaration, then copies the target's accumulated outbound edges into
  the current declaration's edge set, and finally visits the type
  arguments.  Go indexes `v.md.Decls[to]` (panicking out of range); the
  out-of-range case is modelled as a no-op and is unreachable under the
  well-formedness hypotheses of the theorems that need it.
* `declJ` is `typeRegistry.visitDecl` (part_001:150-166): an unseen
  declaration is marked seen, appended to its namespace's ordered list,
  and descended into with `currDecl` set to it (restored afterwards); a
  seen declaration is not re-descended. -/
def visitRun : Nat → TypeRegistry → VJob → TypeRegistry
  | 0, r, _ => r
  | fuel + 1, r, job =>
    match job with
    | VJob.typeJ t =>
      match t with
      | SType.nil => r
      | SType.named id args => visitRun fuel r (VJob.namedJ id args)
      | SType.list e => visitRun fuel r (VJob.typeJ e)
      | SType.map k v => visitRun fuel (visitRun fuel r (VJob.typeJ k)) (VJob.typeJ v)
      | SType.struct fields => visitRun fuel r (VJob.fieldsJ fields)
      | SType.builtin _ => r
      | SType.typeParameter _ _ => r
      | SType.literal => r
      | SType.pointer b => visitRun fuel r (VJob.typeJ b)
      | SType.option v => visitRun fuel r (VJob.typeJ v)
      | SType.config e _ => visitRun fuel r (VJob.typeJ e)
      | SType.union ts => visitRun fuel r (VJob.listJ ts)
    | VJob.fieldsJ fs =>
      match fs with
      | [] => r
      | (_, ft) :: rest =>
        visitRun fuel (visitRun fuel r (VJob.typeJ ft)) (VJob.fieldsJ rest)
    | VJob.listJ ts =>
      match ts with
      | [] => r
      | t :: rest =>
        visitRun fuel (visitRun fuel r (VJob.typeJ t)) (VJob.listJ rest)
    | VJob.namedJ tgt args =>
      let curr := r.currDecl
      let r1 := match curr with
        | some c => { r with declRefs := addRef r.declRefs c.id tgt }
        | none => r
      let r2 := match r1.md.decls[tgt]? with
        | some d => visitRun fuel r1 (VJob.declJ d)
        | none => r1
      let r3 := match curr with
        | some c => { r2 with declRefs := copyRefs r2.declRefs c.id tgt }
        | none => r2
      visitRun fuel r3 (VJob.listJ args)
    | VJob.declJ d =>
      if r.seenDecls d.id then r
      else
        let r1 := { r with
          seenDecls := fun i => i = d.id || r.seenDecls i
          namespaces := assocAppend r.namespaces d.locPkgName d }
        let r2 := { r1 with currDecl := some d }
        let r3 := visitRun fuel r2 (VJob.typeJ d.typ)
        { r3 with currDecl := r1.currDecl }

/-- `typeRegistry.Visit`. -/
def Visit (fuel : Nat) (r : TypeRegistry) (t : SType) : TypeRegistry :=
  visitRun fuel r (VJob.typeJ t)

/-- `typeRegistry.visitNamed`. -/
def visitNamed (fuel : Nat) (r : TypeRegistry) (tgt : Nat) (args : List SType) :
    TypeRegistry :=
  visitRun fuel r (VJob.namedJ tgt args)

/-- `typeRegistry.visitDecl`. -/
def visitDecl (fuel : Nat) (r : TypeRegistry) (d : SDecl) : TypeRegistry :=
  visitRun fuel r (VJob.declJ d)

/-- `typeRegistry.Decls` (a missing namespace is the nil slice). -/
def TypeRegistry.Decls (r : TypeRegistry) (name : String) : List SDecl :=
  (assocFind r.namespaces name).getD []

/-- `typeRegistry.Constants`. -/
def TypeRegistry.Constants (r : TypeRegistry) (pkgName : String) : List ConstantDecl :=
  (assocFind r.constants pkgName).getD []

/-- `typeRegistry.Enums`. -/
def TypeRegistry.Enums (r : TypeRegistry) (pkgName : String) : List EnumDecl :=
  (assocFind r.enums pkgName).getD []

/-- `typeRegistry.Namespaces`: the key set, lexicographically sorted. -/
def TypeRegistry.Namespaces (r : TypeRegistry) : List String :=
  (r.namespaces.map (fun p => p.1)).mergeSort (fun a b => a ≤ b)

/-- `typeRegistry.IsRecursiveRef` (part_001:195-197). -/
def IsRecursiveRef (r : TypeRegistry) (frm tgt : Nat) : Bool :=
  r.declRefs frm tgt && r.declRefs tgt frm

/-- The in-place compaction loop of `getNamedTypes` (part_001:64-72):
keeps, in order, the declarations whose name is not a discovered enum
name of the namespace. -/
def filterCompact (enumNames : List String) : List SDecl → List SDecl
  | [] => []
  | d :: ds =>
    if !(enumNames.contains d.name) then d :: filterCompact enumNames ds
    else filterCompact enumNames ds

/-- One step of the post-traversal filtering pass (part_001:57-74): for a
namespace holding discovered enums, remove from its plain declaration
list every declaration whose name matches an enum name. -/
def enumFilterStep (acc : TypeRegistry) (p : String × List EnumDecl) :
    TypeRegistry :=
  let enumNames := p.2.map (fun e => e.name)
  match assocFind acc.namespaces p.1 with
  | some decls =>
    { acc with namespaces := assocSet acc.namespaces p.1 (filterCompact enumNames decls) }
  | none => acc

/-- The post-traversal filtering pass of `getNamedTypes` (part_001:56-74). -/
def applyEnumFilter (r : TypeRegistry) : TypeRegistry :=
  r.enums.foldl enumFilterStep r

/-- Visiting the three schemas of one non-private RPC (part_001:27-33). -/
def visitRpcStep (fuel : Nat) (acc : TypeRegistry) (rpc : Rpc) : TypeRegistry :=
  if !rpc.accessIsPrivate then
    Visit fuel (Visit fuel (Visit fuel acc rpc.handshakeSchema)
      rpc.requestSchema) rpc.responseSchema
  else acc

/-- Visiting one service if selected (part_001:23-34). -/
def visitSvcStep (fuel : Nat) (set : List String) (acc : TypeRegistry)
    (svc : Svc) : TypeRegistry :=
  if set.contains svc.name then svc.rpcs.foldl (visitRpcStep fuel) acc
  else acc

/-- Grouping one constant by package name (part_001:40-46). -/
def addConstantStep (acc : TypeRegistry) (c : ConstantDecl) : TypeRegistry :=
  if c.pkgName = "" then acc
  else { acc with constants := assocAppend acc.constants c.pkgName c }

/-- Grouping one enum by package name (part_001:48-54). -/
def addEnumStep (acc : TypeRegistry) (e : EnumDecl) : TypeRegistry :=
  if e.pkgName = "" then acc
  else { acc with enums := assocAppend acc.enums e.pkgName e }

/-- The traversal part of `getNamedTypes` (part_001:13-54): visit the
reachable surface (non-private RPC schemas of selected services, auth
handler parameters), then group constants and enums by package name
(skipping empty package names). -/
def getNamedTypesPre (md : MetaData) (set : List String) (fuel : Nat) : TypeRegistry :=
  let r : TypeRegistry :=
    { md := md, namespaces := [], seenDecls := fun _ => false,
      declRefs := fun _ _ => false, currDecl := none, constants := [], enums := [] }
  let r := md.svcs.foldl (visitSvcStep fuel set) r
  let r := match md.authHandler with
    | some ah => Visit fuel r ah.params
    | none => r
  let r := md.constants.foldl addConstantStep r
  let r := md.enums.foldl addEnumStep r
  r

/-- `getNamedTypes` (part_001:13-77): traversal followed by the enum
filtering pass. -/
def getNamedTypes (md : MetaData) (set : List String) (fuel : Nat) : TypeRegistry :=
  applyEnumFilter (getNamedTypesPre md set fuel)

/-! ## The legacymeta builder (`src/v2/app/legacymeta/schema.go`) -/

/-- `builder.builtinType` (schema.go:20-66): maps a v2 builtin kind to the
proto builtin enum.  The proto tag numbers live outside the analyzed
source; they are abstracted as distinct naturals in the order of the Go
switch. -/
def builtinType : BuiltinKind → Nat
  | BuiltinKind.bool => 0
  | BuiltinKind.int => 1
  | BuiltinKind.int8 => 2
  | BuiltinKind.int16 => 3
  | BuiltinKind.int32 => 4
  | BuiltinKind.int64 => 5
  | BuiltinKind.uint => 6
  | BuiltinKind.uint8 => 7
  | BuiltinKind.uint16 => 8
  | BuiltinKind.uint32 => 9
  | BuiltinKind.uint64 => 10
  | BuiltinKind.float32 => 11
  | BuiltinKind.float64 => 12
  | BuiltinKind.string => 13
  | BuiltinKind.bytes => 14
  | BuiltinKind.time => 15
  | BuiltinKind.uuid => 16
  | BuiltinKind.json => 17
  | BuiltinKind.userID => 18

/-- `schemav2.TypeDecl` as consumed by `builder.decl`: the import path of
the declaring package, the package's short name (used for `Loc.PkgName`),
the package-level declared name (`PkgName()`, `none` when the declaration
is not addressable at package level), type parameter names, doc, and the
underlying type. -/
structure TypeDeclV2 where
  pkgPath : String
  pkgShortName : String
  pkgName : Option String
  typeParams : List String
  doc : String
  typ : V2Type

/-- `schemav2.Decl` (an interface): either a `*TypeDecl` or some other
declaration kind, which `builder.decl` rejects fatally. -/
inductive V2Decl where
  | typeDecl (td : TypeDeclV2)
  | otherDecl

/-- The declaration environment: resolves the `Decl()` pointer of a named
type / type-parameter reference, keyed by (import path, declared name).
In Go the pointer is embedded in the type node; a missing entry is
unreachable for well-formed parser output. -/
def Env := List ((String × String) × TypeDeclV2)

/-- Lookup in the builder's `b.decls` map model. -/
def keyFind (l : List ((String × String) × Nat)) (k : String × String) : Option Nat :=
  match l.find? (fun p => p.1 = k) with
  | some p => some p.2
  | none => none

/-- Environment lookup. -/
def envFind (env : Env) (k : String × String) : Option TypeDeclV2 :=
  match env.find? (fun p => p.1 = k) with
  | some p => some p.2
  | none => none

/-- The builder state relevant to the embedded code: the declaration
identity map `b.decls`, the output lists `b.md.Decls` / `b.md.Enums`, the
used-named-type set, and the collected (non-fatal) diagnostics of
`errs.Addf`. -/
structure Builder where
  decls : List ((String × String) × Nat)
  mdDecls : List SDecl
  mdEnums : List EnumDecl
  usedNamedTypes : String × String → Bool
  errs : List String

/-- Build aborts: `errs.Fatalf` (which aborts the whole build) and Lean
fuel exhaustion (no Go counterpart; excluded by the `ok` hypotheses of
the theorems and by ample fuel on concrete runs). -/
inductive BuildAbort where
  | fatal (msg : String)
  | outOfFuel
deriving DecidableEq, Repr

/-- The Go pointer write `d.Type = ...` on the placeholder that was
appended at `mdDecls[i]`. -/
def setTypAt : List SDecl → Nat → SType → List SDecl
  | [], _, _ => []
  | d :: rest, 0, ty => { d with typ := ty } :: rest
  | d :: rest, n + 1, ty => d :: setTypAt rest n ty

/-- The reservation step of `builder.decl` (schema.go:342-362): record the
next free id for the key and append the placeholder declaration entry,
with its underlying type still nil, *before* the underlying type is
resolved. -/
def reserveDecl (b : Builder) (k : String × String) (td : TypeDeclV2) :
    Builder × Nat :=
  let declIdx := b.mdDecls.length
  let placeholder : SDecl :=
    { id := declIdx, name := k.2, typ := SType.nil,
      typeParams := td.typeParams, doc := td.doc,
      locPkgName := td.pkgShortName }
  ({ b with
      decls := b.decls ++ [(k, declIdx)]
      mdDecls := b.mdDecls ++ [placeholder] },
   declIdx)

/-- `schemautil.IsBuiltinKind(typ, Uint8)`: the type is the builtin
byte/uint8 type. -/
def IsBuiltinKindUint8 : V2Type → Bool
  | V2Type.builtin BuiltinKind.uint8 => true
  | _ => false

/-- The mutually recursive builder entry points reified as one job type:
`tyJ` is `builder.schemaType` on a (nullable) v2 type, `tysJ` its
type-argument loop (`schemaTypes`), `fldsJ` the struct-field loop,
`cfgJ` is `builder.configValue` on a named type's components, and `declJ`
is `builder.decl`. -/
inductive BJob where
  | tyJ (ot : Option V2Type)
  | tysJ (ts : List V2Type)
  | fldsJ (fs : List (Option String × String × V2Type))
  | cfgJ (info : NamedInfo) (args : List V2Type)
  | declJ (d : V2Decl)

/-- The result of a builder job; the shape is determined by the job
(`buildRun` never mixes them — the mismatch arms below are dead code
introduced by the reification and mapped to a fatal abort). -/
inductive BOut where
  | tyO (t : SType)
  | tysO (ts : List SType)
  | fldsO (fs : List (String × SType))
  | idO (n : Nat)

/-- The combined recursion of `builder.schemaType` / `builder.decl` /
`builder.configValue` (schema.go:68-161, 285-315, 321-367), one
structurally recursive function over fuel.

* `tyJ` — `schemaType`: nil yields nil; builtins map through
  `builtinType`; a named type from `"encore.dev/config"` goes through
  `configValue`, every other named type is recorded in
  `usedNamedTypes`, resolved through `decl`, and emitted with its
  converted type arguments; struct fields are each converted (anonymous
  fields skipped entirely, non-exported fields converted but dropped);
  list/map/pointer/option descend, with the `[N]byte -> BYTES` special
  case; a type-parameter reference resolves its declaring declaration
  through `decl`; every remaining shape is collected as a non-fatal
  `errs.Addf` diagnostic and yields nil.
* `cfgJ` — `configValue`: `Value`/`Values` convert their first type
  argument (Go indexes `TypeArgs[0]`, panicking when absent — modelled as
  a fatal abort), wrapping `Values` elements in a list; any other name
  unwraps the named declaration's underlying type and recurses when that
  is again named, otherwise collects a diagnostic and yields nil.
* `declJ` — `decl`: a non-type declaration or one without a
  package-level name is a fatal abort (`errs.Fatalf`); a known key
  returns its reserved id unchanged; a fresh key reserves the next id and
  appends a placeholder entry (`reserveDecl`), resolves the underlying
  type from the reserved state, then patches the placeholder's type in
  place. -/
def buildRun (env : Env) : Nat → Builder → BJob → Except BuildAbort (Builder × BOut)
  | 0, _, _ => Except.error BuildAbort.outOfFuel
  | fuel + 1, b, job =>
    match job with
    | BJob.tyJ ot =>
      match ot with
      | none => Except.ok (b, BOut.tyO SType.nil)
      | some t =>
        match t with
        | V2Type.builtin kind =>
          Except.ok (b, BOut.tyO (SType.builtin (builtinType kind)))
        | V2Type.named info args =>
          if info.pkgPath = "encore.dev/config" then
            buildRun env fuel b (BJob.cfgJ info args)
          else
            let qn := (info.pkgPath, info.name)
            let b := { b with usedNamedTypes := fun q => q = qn || b.usedNamedTypes q }
            match envFind env (info.pkgPath, info.name) with
            | none => Except.error (BuildAbort.fatal "dangling named type reference")
            | some td => do
              let (b, out) ← buildRun env fuel b (BJob.declJ (V2Decl.typeDecl td))
              match out with
              | BOut.idO n => do
                let (b, out2) ← buildRun env fuel b (BJob.tysJ args)
                match out2 with
                | BOut.tysO args2 => pure (b, BOut.tyO (SType.named n args2))
                | _ => Except.error (BuildAbort.fatal "shape")
              | _ => Except.error (BuildAbort.fatal "shape")
        | V2Type.struct fields => do
          let (b, out) ← buildRun env fuel b (BJob.fldsJ fields)
          match out with
          | BOut.fldsO fs => pure (b, BOut.tyO (SType.struct fs))
          | _ => Except.error (BuildAbort.fatal "shape")
        | V2Type.map k v => do
          let (b, out1) ← buildRun env fuel b (BJob.tyJ (some k))
          let (b, out2) ← buildRun env fuel b (BJob.tyJ (some v))
          match out1, out2 with
          | BOut.tyO k2, BOut.tyO v2 => pure (b, BOut.tyO (SType.map k2 v2))
          | _, _ => Except.error (BuildAbort.fatal "shape")
        | V2Type.list len elem =>
          if decide (0 ≤ len) && IsBuiltinKindUint8 elem then
            Except.ok (b, BOut.tyO (SType.builtin (builtinType BuiltinKind.bytes)))
          else do
            let (b, out) ← buildRun env fuel b (BJob.tyJ (some elem))
            match out with
            | BOut.tyO e2 => pure (b, BOut.tyO (SType.list e2))
            | _ => Except.error (BuildAbort.fatal "shape")
        | V2Type.pointer elem => do
          let (b, out) ← buildRun env fuel b (BJob.tyJ (some elem))
          match out with
          | BOut.tyO e2 => pure (b, BOut.tyO (SType.pointer e2))
          | _ => Except.error (BuildAbort.fatal "shape")
        | V2Type.option v => do
          let (b, out) ← buildRun env fuel b (BJob.tyJ (some v))
          match out with
          | BOut.tyO v2 => pure (b, BOut.tyO (SType.option v2))
          | _ => Except.error (BuildAbort.fatal "shape")
        | V2Type.typeParamRef declKey idx =>
          match envFind env declKey with
          | none => Except.error (BuildAbort.fatal "dangling type parameter reference")
          | some td => do
            let (b, out) ← buildRun env fuel b (BJob.declJ (V2Decl.typeDecl td))
            match out with
            | BOut.idO n => pure (b, BOut.tyO (SType.typeParameter n idx))
            | _ => Except.error (BuildAbort.fatal "shape")
        | V2Type.other =>
          Except.ok ({ b with errs := b.errs ++ ["unsupported schema type"] },
            BOut.tyO SType.nil)
    | BJob.tysJ ts =>
      match ts with
      | [] => Except.ok (b, BOut.tysO [])
      | t :: rest => do
        let (b, out) ← buildRun env fuel b (BJob.tyJ (some t))
        let (b, out2) ← buildRun env fuel b (BJob.tysJ rest)
        match out, out2 with
        | BOut.tyO t2, BOut.tysO rest2 => pure (b, BOut.tysO (t2 :: rest2))
        | _, _ => Except.error (BuildAbort.fatal "shape")
    | BJob.fldsJ fs =>
      match fs with
      | [] => Except.ok (b, BOut.fldsO [])
      | (nameOpt, _doc, ft) :: rest =>
        match nameOpt with
        | none => buildRun env fuel b (BJob.fldsJ rest)
        | some nm => do
          let (b, out) ← buildRun env fuel b (BJob.tyJ (some ft))
          let (b, out2) ← buildRun env fuel b (BJob.fldsJ rest)
          match out, out2 with
          | BOut.tyO ft2, BOut.fldsO rest2 =>
            if isExportedName nm then pure (b, BOut.fldsO ((nm, ft2) :: rest2))
            else pure (b, BOut.fldsO rest2)
          | _, _ => Except.error (BuildAbort.fatal "shape")
    | BJob.cfgJ info args =>
      if info.name = "Value" ∨ info.name = "Values" then
        let isList := info.name = "Values"
        match args[0]? with
        | none => Except.error (BuildAbort.fatal "index out of range")
        | some a0 => do
          let (b, out) ← buildRun env fuel b (BJob.tyJ (some a0))
          match out with
          | BOut.tyO elem =>
            let elem := if isList then SType.list elem else elem
            pure (b, BOut.tyO (SType.config elem isList))
          | _ => Except.error (BuildAbort.fatal "shape")
      else
        match envFind env (info.pkgPath, info.name) with
        | none => Except.error (BuildAbort.fatal "dangling config type reference")
        | some td =>
          match td.typ with
          | V2Type.named info2 args2 => buildRun env fuel b (BJob.cfgJ info2 args2)
          | _ =>
            Except.ok ({ b with errs := b.errs ++ ["unsupported config type"] },
              BOut.tyO SType.nil)
    | BJob.declJ d =>
      match d with
      | V2Decl.otherDecl => Except.error (BuildAbort.fatal "cannot add declaration")
      | V2Decl.typeDecl td =>
        match td.pkgName with
        | none => Except.error (BuildAbort.fatal "declaration not at package level")
        | some pkgName =>
          let k := (td.pkgPath, pkgName)
          match keyFind b.decls k with
          | some n => Except.ok (b, BOut.idO n)
          | none => do
            let (b1, declIdx) := reserveDecl b k td
            let (b2, out) ← buildRun env fuel b1 (BJob.tyJ (some td.typ))
            match out with
            | BOut.tyO ty =>
              pure ({ b2 with mdDecls := setTypAt b2.mdDecls declIdx ty },
                BOut.idO declIdx)
            | _ => Except.error (BuildAbort.fatal "shape")

/-- `builder.schemaType`. -/
def schemaType (env : Env) (fuel : Nat) (b : Builder) (ot : Option V2Type) :
    Except BuildAbort (Builder × SType) :=
  match buildRun env fuel b (BJob.tyJ ot) with
  | Except.ok (b2, BOut.tyO t) => Except.ok (b2, t)
  | Except.ok _ => Except.error (BuildAbort.fatal "shape")
  | Except.error e => Except.error e

/-- `builder.decl`. -/
def decl (env : Env) (fuel : Nat) (b : Builder) (d : V2Decl) :
    Except BuildAbort (Builder × Nat) :=
  match buildRun env fuel b (BJob.declJ d) with
  | Except.ok (b2, BOut.idO n) => Except.ok (b2, n)
  | Except.ok _ => Except.error (BuildAbort.fatal "shape")
  | Except.error e => Except.error e

/-- The member conversion of `addEnumToMeta` (schema.go:424-436): name and
doc are copied and the value oneof is set by kind — with no case for
float, whose members keep a nil value. -/
def enumMemberDecl (m : Constant) : ConstantDecl :=
  let md0 : ConstantDecl := { name := m.name, doc := m.doc, pkgName := "" }
  let v : Option CValue :=
    match m.value.kind with
    | ConstantKind.string => some (CValue.strValue m.value.strValue)
    | ConstantKind.int => some (CValue.intValue m.value.intValue)
    | ConstantKind.bool => some (CValue.boolValue m.value.boolValue)
    | ConstantKind.float => none
  { md0 with value := v }

/-- `builder.addEnumToMeta` (schema.go:410-446): converts a
`constant.Enum` to proto format; members with a nil converted value are
not appended, and the enum declaration itself is only added when at least
one member survives. -/
def addEnumToMeta (env : Env) (fuel : Nat) (b : Builder) (e : Enum) :
    Except BuildAbort Builder := do
  let (b, ut) ←
    match e.underlyingType with
    | some t => schemaType env fuel b (some t)
    | none => Except.ok (b, SType.nil)
  let members := e.members.foldl (fun acc m =>
    let memberDecl := enumMemberDecl m
    if memberDecl.value.isSome then acc ++ [memberDecl] else acc) []
  if members.length > 0 then
    Except.ok { b with mdEnums := b.mdEnums ++
      [{ name := e.name, doc := e.doc, pkgName := e.pkgName,
         underlyingType := ut, members := members }] }
  else
    Except.ok b

/-! ## Reference-graph reachability (for the recursion claims) -/

/-- `NamedIn j t`: a `Named` node with declaration id `j` occurs somewhere
inside the proto type `t` (including inside type arguments, struct
fields, and union variants). -/
inductive NamedIn : Nat → SType → Prop where
  | namedSelf (id : Nat) (args : List SType) : NamedIn id (SType.named id args)
  | namedArg {j id : Nat} {t : SType} {args : List SType} :
      t ∈ args → NamedIn j t → NamedIn j (SType.named id args)
  | inListE {j : Nat} {e : SType} : NamedIn j e → NamedIn j (SType.list e)
  | inMapKey {j : Nat} {k v : SType} : NamedIn j k → NamedIn j (SType.map k v)
  | inMapVal {j : Nat} {k v : SType} : NamedIn j v → NamedIn j (SType.map k v)
  | inField {j : Nat} {nm : String} {t : SType} {fields : List (String × SType)} :
      (nm, t) ∈ fields → NamedIn j t → NamedIn j (SType.struct fields)
  | inPointer {j : Nat} {b : SType} : NamedIn j b → NamedIn j (SType.pointer b)
  | inOption {j : Nat} {v : SType} : NamedIn j v → NamedIn j (SType.option v)
  | inConfig {j : Nat} {e : SType} {il : Bool} :
      NamedIn j e → NamedIn j (SType.config e il)
  | inUnion {j : Nat} {t : SType} {ts : List SType} :
      t ∈ ts → NamedIn j t → NamedIn j (SType.union ts)

/-- The direct reference edge of the metadata's type graph: some
declaration entry with id `i` contains a `Named` reference to id `j` in
its body. -/
def EdgeG (md : MetaData) (i j : Nat) : Prop :=
  ∃ d ∈ md.decls, d.id = i ∧ NamedIn j d.typ

/-- An acyclic type graph: no declaration id reaches itself through a
nonempty chain of `Named`-type references. -/
def Acyclic (md : MetaData) : Prop :=
  ∀ i, ¬ Relation.TransGen (EdgeG md) i i

/-- `JobNamed k j`: the pending traversal job `j` still contains a
`Named` reference to declaration id `k` (the traversal-side analogue of
`NamedIn`; a decl job carries no pending type). -/
def JobNamed (k : Nat) : VJob → Prop
  | VJob.typeJ t => NamedIn k t
  | VJob.fieldsJ fs => ∃ p ∈ fs, NamedIn k p.2
  | VJob.listJ ts => ∃ t ∈ ts, NamedIn k t
  | VJob.namedJ tgt args => k = tgt ∨ ∃ t ∈ args, NamedIn k t
  | VJob.declJ _ => False

/-- The soundness invariant of the registry's edge map: every recorded
edge is backed by a nonempty `Named`-reference chain of the metadata's
type graph. -/
def RefsInv (md : MetaData) (refs : Nat → Nat → Bool) : Prop :=
  ∀ a b, refs a b = true → Relation.TransGen (EdgeG md) a b

/-! ## Claim-side predicates and concrete instances -/

/-- The type-identity relation asserted by the specification for enum
grouping: builtin-kind equality for builtin types, nominal named-type
equality (ignoring type arguments) for named types.  (Stated from the
spec's words, for comparison against the source's `typesEqual`.) -/
def claimTypeIdentity : V2Type → V2Type → Bool
  | V2Type.builtin k1, V2Type.builtin k2 => k1 = k2
  | V2Type.named i1 _, V2Type.named i2 _ =>
      i1.pkgPath = i2.pkgPath && i1.name = i2.name
  | _, _ => false

/-- Well-formed string literal texts: every string basic literal carries
at least its two delimiter bytes, as the Go parser always produces.
(Operands of `call` expressions are never evaluated by the evaluator, so
they are unconstrained.) -/
def wellFormedStringLits : GoExpr → Bool
  | GoExpr.basicLit kind value =>
      if kind = LitKind.stringLit then 2 ≤ value.toList.length else true
  | GoExpr.ident _ => true
  | GoExpr.unary _ x => wellFormedStringLits x
  | GoExpr.binary _ x y => wellFormedStringLits x && wellFormedStringLits y
  | GoExpr.call _ _ => true
  | GoExpr.otherExpr => true

/-- The shape of the export-directive errors produced by the explicit
parse loop: one `unexportedConstant` error per non-exported name, in
source order, across all value specs. -/
def unexportedErrsOf (specs : List GoSpec) : List ParseErr :=
  specs.flatMap (fun s =>
    match s with
    | GoSpec.valueSpec names _ _ =>
        (names.filter (fun n => !isExportedName n.name)).map
          (fun n => ParseErr.unexportedConstant n.name)
    | GoSpec.otherSpec => [])

/-- `const (A = iota; B; C)` with no declared type, wrapped in the parse
data of an example file. -/
def pdIota : ParseData :=
  { schema := none
    file := { pkgPath := "example.com/pkg", pkgName := "pkg",
              filename := "consts.go" }
    decl := { tok := DeclTok.constTok
              specs := [
                GoSpec.valueSpec [{ name := "A" }] none [GoExpr.ident "iota"],
                GoSpec.valueSpec [{ name := "B" }] none [],
                GoSpec.valueSpec [{ name := "C" }] none []] }
    doc := "" }

/-- The constant produced for one identifier of `pdIota`. -/
def cIota (nm : String) (v : Int) : Constant :=
  { name := nm, typ := none
    value := { intValue := v, kind := ConstantKind.int }
    doc := ""
    loc := { pkgPath := "example.com/pkg", pkgName := "pkg",
             filename := "consts.go", startPos := 0, endPos := 0 }
    pkgName := "pkg", pkgPath := "example.com/pkg" }

/-- A constant with declared type `int` (builtin), as in
`const (A int = 1; B string = "x")`. -/
def cInt : Constant :=
  { name := "A", typ := some (V2Type.builtin BuiltinKind.int)
    value := { intValue := 1, kind := ConstantKind.int }
    doc := "", loc := {}, pkgName := "pkg", pkgPath := "example.com/pkg" }

/-- A constant with declared type `string` (builtin) from the same
block. -/
def cStr : Constant :=
  { name := "B", typ := some (V2Type.builtin BuiltinKind.string)
    value := { strValue := "x", kind := ConstantKind.string }
    doc := "", loc := {}, pkgName := "pkg", pkgPath := "example.com/pkg" }

/-- A service "svc" with one public RPC whose request schema is the given
root type (handshake and response schemas nil). -/
def svcWithRequest (root : SType) : Svc :=
  { name := "svc"
    rpcs := [{ accessIsPrivate := false
               handshakeSchema := SType.nil
               requestSchema := root
               responseSchema := SType.nil }] }

/-- A two-declaration cycle: declaration 0 ("A") has a struct field of
named type 1, and declaration 1 ("B") has a struct field of named type 0;
one public RPC's request schema reaches declaration 0. -/
def mdCycle : MetaData :=
  { decls := [
      { id := 0, name := "A", typ := SType.struct [("F", SType.named 1 [])],
        typeParams := [], doc := "", locPkgName := "pkg" },
      { id := 1, name := "B", typ := SType.struct [("G", SType.named 0 [])],
        typeParams := [], doc := "", locPkgName := "pkg" }]
    constants := [], enums := []
    svcs := [svcWithRequest (SType.named 0 [])]
    authHandler := none }

/-- An acyclic two-declaration chain: declaration 0 references 1, and 1
is a leaf struct over a builtin. -/
def mdChain : MetaData :=
  { decls := [
      { id := 0, name := "A", typ := SType.struct [("F", SType.named 1 [])],
        typeParams := [], doc := "", locPkgName := "pkg" },
      { id := 1, name := "B", typ := SType.struct [("G", SType.builtin 1)],
        typeParams := [], doc := "", locPkgName := "pkg" }]
    constants := [], enums := []
    svcs := [svcWithRequest (SType.named 0 [])]
    authHandler := none }

/-- The builder state at the start of a build (all registries fresh). -/
def emptyBuilder : Builder :=
  { decls := [], mdDecls := [], mdEnums := [],
    usedNamedTypes := fun _ => false, errs := [] }

/-- A self-referential type declaration:
`type Node struct { Next *Node }`. -/
def tdNode : TypeDeclV2 :=
  { pkgPath := "example.com/pkg", pkgShortName := "pkg",
    pkgName := some "Node", typeParams := [], doc := ""
    typ := V2Type.struct [(some "Next", "",
      V2Type.pointer (V2Type.named
        { pkgPath := "example.com/pkg", name := "Node", doc := "" } []))] }

/-- The environment resolving the `Node` reference. -/
def envNode : Env := [(("example.com/pkg", "Node"), tdNode)]

/-- An enum whose members mix string/int/bool/float values, for the
member-filtering claim. -/
def enumMixed : Enum :=
  { name := "E", underlyingType := none
    members := [
      { name := "S", typ := none, value := { strValue := "s", kind := ConstantKind.string },
        doc := "", loc := {}, pkgName := "pkg", pkgPath := "p" },
      { name := "F", typ := none, value := { floatValue := 1.5, kind := ConstantKind.float },
        doc := "", loc := {}, pkgName := "pkg", pkgPath := "p" },
      { name := "I", typ := none, value := { intValue := 7, kind := ConstantKind.int },
        doc := "", loc := {}, pkgName := "pkg", pkgPath := "p" },
      { name := "B", typ := none, value := { boolValue := true, kind := ConstantKind.bool },
        doc := "", loc := {}, pkgName := "pkg", pkgPath := "p" }]
    doc := "", loc := {}, pkgName := "pkg", pkgPath := "p" }

/-- An enum all of whose members are float-valued. -/
def enumAllFloat : Enum :=
  { name := "E", underlyingType := none
    members := [
      { name := "F1", typ := none, value := { floatValue := 1.5, kind := ConstantKind.float },
        doc := "", loc := {}, pkgName := "pkg", pkgPath := "p" },
      { name := "F2", typ := none, value := { floatValue := 2.5, kind := ConstantKind.float },
        doc := "", loc := {}, pkgName := "pkg", pkgPath := "p" }]
    doc := "", loc := {}, pkgName := "pkg", pkgPath := "p" }

/-- A (possibly absent) v2 type is a builtin type. -/
def isBuiltinType : Option V2Type → Bool
  | some (V2Type.builtin _) => true
  | _ => false

/-- A (possibly absent) v2 type is a named type. -/
def isNamedType : Option V2Type → Bool
  | some (V2Type.named _ _) => true
  | _ => false

/-- A `var` block (not a constant declaration) wrapped in parse data. -/
def pdVar : ParseData :=
  { schema := none
    file := { pkgPath := "example.com/pkg", pkgName := "pkg",
              filename := "vars.go" }
    decl := { tok := DeclTok.varTok, specs := [] }
    doc := "" }

/-- A constant block mixing an exported and an unexported name. -/
def pdMixedVis : ParseData :=
  { schema := none
    file := { pkgPath := "example.com/pkg", pkgName := "pkg",
              filename := "consts.go" }
    decl := { tok := DeclTok.constTok
              specs := [
                GoSpec.valueSpec [{ name := "Visible" }, { name := "hidden" }]
                  none [GoExpr.basicLit LitKind.intLit "1",
                        GoExpr.basicLit LitKind.intLit "2"]] }
    doc := "" }

/-- How one builder state may evolve into another across any builder
call: bindings of the declaration-id map are preserved (never reassigned),
the declaration list only grows, entries below the old length are
untouched, and the enum list is untouched. -/
def BuilderEvolves (b b2 : Builder) : Prop :=
  (∀ k n, keyFind b.decls k = some n → keyFind b2.decls k = some n)
  ∧ b.mdDecls.length ≤ b2.mdDecls.length
  ∧ (∀ i, i < b.mdDecls.length → b2.mdDecls[i]? = b.mdDecls[i]?)
  ∧ b2.mdEnums = b.mdEnums

/-- The id component of a declaration-resolution result (for concrete
evaluation in witnesses). -/
def declResultIs (x : Except BuildAbort (Builder × Nat)) (n : Nat) : Bool :=
  match x with
  | Except.ok p => p.2 = n
  | Except.error _ => false

/-! ## Theorems -/

/-- Bind of a successful `Except` computation. -/
theorem ok_bind {α β γ : Type} (a : α) (f : α → Except γ β) :
    (Except.ok a >>= f : Except γ β) = f a := rfl

/-- `typesEqual` against a builtin left operand tests only that the right
operand is builtin. -/
theorem typesEqual_builtin_left (k : BuiltinKind) (o : Option V2Type) :
    typesEqual (some (V2Type.builtin k)) o = isBuiltinType o := by
  cases o with
  | none => rfl
  | some u => cases u <;> rfl

/-- `typesEqual` against a named left operand tests only that the right
operand is named. -/
theorem typesEqual_named_left (info : NamedInfo) (args : List V2Type)
    (o : Option V2Type) :
    typesEqual (some (V2Type.named info args)) o = isNamedType o := by
  cases o with
  | none => rfl
  | some u => cases u <;> rfl

/-- `typesEqual` with a left operand that is neither builtin nor named is
everywhere false. -/
theorem typesEqual_none_left (ft : V2Type) (o : Option V2Type)
    (h1 : isBuiltinType (some ft) = false) (h2 : isNamedType (some ft) = false) :
    typesEqual (some ft) o = false := by
  cases ft
  case builtin => simp [isBuiltinType] at h1
  case named => simp [isNamedType] at h2
  all_goals
    cases o with
    | none => rfl
    | some u => cases u <;> rfl

/-- Inversion for `isBuiltinType`. -/
theorem isBuiltinType_eq_true (o : Option V2Type) (h : isBuiltinType o = true) :
    ∃ k, o = some (V2Type.builtin k) := by
  cases o with
  | none => simp [isBuiltinType] at h
  | some u => cases u <;> simp [isBuiltinType] at h ⊢

/-- Inversion for `isNamedType`. -/
theorem isNamedType_eq_true (o : Option V2Type) (h : isNamedType o = true) :
    ∃ info args, o = some (V2Type.named info args) := by
  cases o with
  | none => simp [isNamedType] at h
  | some u => cases u <;> simp [isNamedType] at h ⊢

/-- The guard structure of `tryGroupAsEnum` on a nonempty block. -/
theorem tryGroup_isSome_iff (c0 : Constant) (rest : List Constant)
    (p n d : String) :
    (tryGroupAsEnum (c0 :: rest) p n d).isSome = true ↔
      (2 ≤ (c0 :: rest).length ∧ c0.typ.isSome = true ∧
        ∀ c ∈ rest, c.typ.isSome = true ∧ typesEqual c0.typ c.typ = true) := by
  simp only [tryGroupAsEnum]
  by_cases hlen : (c0 :: rest).length < 2
  · rw [if_pos hlen]
    simp only [Option.isSome_none, Bool.false_eq_true, false_iff, not_and]
    intro h
    omega
  · rw [if_neg hlen]
    cases hft : c0.typ with
    | none => simp
    | some ft =>
      simp only
      by_cases hall : rest.all (fun c => c.typ.isSome && typesEqual (some ft) c.typ) = true
      · rw [if_pos hall]
        simp only [Option.isSome_some, true_iff]
        refine ⟨by omega, by simp, ?_⟩
        intro c hc
        have := (List.all_eq_true.mp hall) c hc
        simp only [Bool.and_eq_true] at this
        exact this
      · rw [if_neg hall]
        simp only [Option.isSome_none, Bool.false_eq_true, false_iff, not_and]
        intro _ _ hrest
        apply hall
        refine List.all_eq_true.mpr ?_
        intro c hc
        have := hrest c hc
        simp only [Bool.and_eq_true]
        exact this

/-- A successful `tryGroupAsEnum` keeps the constants as members. -/
theorem tryGroup_members (constants : List Constant) (p n d : String)
    (e : Enum) (h : tryGroupAsEnum constants p n d = some e) :
    e.members = constants := by
  match constants with
  | [] => simp [tryGroupAsEnum] at h
  | c0 :: rest =>
    simp only [tryGroupAsEnum] at h
    split at h
    · simp at h
    · split at h
      · simp at h
      · split at h
        · cases h
          rfl
        · simp at h

/-- Totality of the evaluator on expressions with well-formed string
literals (the only reachable fault is the fallback slice on a degenerate
string literal). -/
theorem evalWfTotal : ∀ (e : GoExpr) (specIndex : Int),
    wellFormedStringLits e = true →
    ∃ v, evaluateExprWithSpecIndex e specIndex = Except.ok v
  | GoExpr.basicLit kind value, si, hwf => by
    cases kind with
    | stringLit =>
      have hlen : 2 ≤ value.toList.length := by
        simpa [wellFormedStringLits] using hwf
      have hnlt : ¬ (value.length < 2) := by
        have heq : value.toList.length = value.length := rfl
        omega
      cases hgu : goUnquote value with
      | some v => exact ⟨_, by simp [evaluateExprWithSpecIndex, hgu]; rfl⟩
      | none => exact ⟨_, by simp [evaluateExprWithSpecIndex, hgu, hnlt]; rfl⟩
    | intLit =>
      cases h : parseInt64 value with
      | some v => exact ⟨_, by simp [evaluateExprWithSpecIndex, h]; rfl⟩
      | none => exact ⟨_, by simp [evaluateExprWithSpecIndex, h]; rfl⟩
    | floatLit =>
      cases h : parseFloat64 value with
      | some v => exact ⟨_, by simp [evaluateExprWithSpecIndex, h]; rfl⟩
      | none => exact ⟨_, by simp [evaluateExprWithSpecIndex, h]; rfl⟩
    | imagLit => exact ⟨_, rfl⟩
    | charLit => exact ⟨_, rfl⟩
  | GoExpr.ident name, si, _ => by
    simp only [evaluateExprWithSpecIndex]
    split
    · exact ⟨_, rfl⟩
    · split
      · exact ⟨_, rfl⟩
      · split <;> exact ⟨_, rfl⟩
  | GoExpr.unary op x, si, hwf => by
    have hx : wellFormedStringLits x = true := by
      simpa [wellFormedStringLits] using hwf
    obtain ⟨v, hv⟩ := evalWfTotal x si hx
    simp only [evaluateExprWithSpecIndex]
    split
    · rw [hv, ok_bind]
      split
      · exact ⟨_, rfl⟩
      · split <;> exact ⟨_, rfl⟩
    · exact ⟨_, rfl⟩
  | GoExpr.binary op x y, si, hwf => by
    have hxy : wellFormedStringLits x = true ∧ wellFormedStringLits y = true := by
      simpa [wellFormedStringLits, Bool.and_eq_true] using hwf
    obtain ⟨vx, hvx⟩ := evalWfTotal x si hxy.1
    obtain ⟨vy, hvy⟩ := evalWfTotal y si hxy.2
    simp only [evaluateExprWithSpecIndex]
    rw [hvx, ok_bind, hvy, ok_bind]
    split
    · split <;> first
        | exact ⟨_, rfl⟩
        | (split <;> exact ⟨_, rfl⟩)
    · split
      · split <;> exact ⟨_, rfl⟩
      · exact ⟨_, rfl⟩
  | GoExpr.call fn args, si, _ => by
    cases fn with
    | ident fname =>
      by_cases h : fname = "len"
      · exact ⟨_, by simp [evaluateExprWithSpecIndex, h]; rfl⟩
      · exact ⟨_, by simp [evaluateExprWithSpecIndex, h]; rfl⟩
    | basicLit k v => exact ⟨_, rfl⟩
    | unary o x => exact ⟨_, rfl⟩
    | binary o x y => exact ⟨_, rfl⟩
    | call f a => exact ⟨_, rfl⟩
    | otherExpr => exact ⟨_, rfl⟩
  | GoExpr.otherExpr, si, _ => ⟨_, rfl⟩

/-- Claim C5: a constant name with no corresponding value expression
evaluates to the zero-based ordinal index of its enclosing spec within
the block (not the name's index within the spec); the reserved
positional-placeholder identifier `iota` also evaluates to the current
spec index; and `const (A = iota; B; C)` parses to the standalone
constants A=0, B=1, C=2. -/
theorem c5_positional_spec_index :
    (∀ (values : List GoExpr) (valueIndex : Nat) (specIndex : Int)
        (lte : Option Nat),
        values.length ≤ valueIndex →
        evaluateConstantWithSpecIndex values valueIndex specIndex lte =
          Except.ok { intValue := specIndex, kind := ConstantKind.int })
    ∧ (∀ specIndex : Int,
        evaluateExprWithSpecIndex (GoExpr.ident "iota") specIndex =
          Except.ok { intValue := specIndex, kind := ConstantKind.int })
    ∧ Parse pdIota = Except.ok ([],
        [ParseResult.constRes (cIota "A" 0), ParseResult.constRes (cIota "B" 1),
         ParseResult.constRes (cIota "C" 2)]) := by
  refine ⟨?_, ?_, ?_⟩
  · intro values i si lte h
    simp [evaluateConstantWithSpecIndex, List.getElem?_eq_none h]
  · intro si
    rfl
  · rfl

/-- Witness for C5 at a concrete input: a missing value expression in
spec 5 evaluates to the integer 5. -/
theorem c5_positional_spec_index_witness :
    evaluateConstantWithSpecIndex [] 0 5 none =
      Except.ok { intValue := 5, kind := ConstantKind.int } :=
  c5_positional_spec_index.1 [] 0 5 none (by decide)

/-- Counterexample to claim C7 as stated: evaluation is not total on
every input expression — a malformed string basic literal shorter than
two bytes drives the manual fallback slice `Value[1:len-1]` out of
bounds (a Go run-time panic). -/
theorem c7_eval_counterexample :
    evaluateExprWithSpecIndex (GoExpr.basicLit LitKind.stringLit "x") 0 =
      Except.error EvalPanic.sliceBounds := rfl

/-- Claim C7 (amended): on every expression whose string literals retain
their two delimiter bytes (as the Go parser produces), evaluation is
total and returns a typed result; integer division and modulo with a
zero right operand fall through to the empty/zero-kind value, as does
any unrecognized expression shape. -/
theorem c7_eval_total_on_wellformed :
    (∀ (e : GoExpr) (specIndex : Int), wellFormedStringLits e = true →
        ∃ v, evaluateExprWithSpecIndex e specIndex = Except.ok v)
    ∧ (∀ (x y : GoExpr) (specIndex : Int) (lv rv : ConstantValue) (op : GoOp),
        op = GoOp.quo ∨ op = GoOp.rem →
        evaluateExprWithSpecIndex x specIndex = Except.ok lv →
        evaluateExprWithSpecIndex y specIndex = Except.ok rv →
        lv.kind = ConstantKind.int → rv.kind = ConstantKind.int →
        rv.intValue = 0 →
        evaluateExprWithSpecIndex (GoExpr.binary op x y) specIndex =
          Except.ok ConstantValue.empty)
    ∧ (∀ specIndex : Int,
        evaluateExprWithSpecIndex GoExpr.otherExpr specIndex =
          Except.ok ConstantValue.empty) := by
  refine ⟨evalWfTotal, ?_, ?_⟩
  · intro x y si lv rv op hop hx hy hlk hrk hr0
    simp only [evaluateExprWithSpecIndex]
    rw [hx, ok_bind, hy, ok_bind]
    rw [if_pos ⟨hlk, hrk⟩]
    rcases hop with h | h <;> subst h <;> (simp [hr0]; try rfl)
  · intro si
    rfl

/-- Witness for C7 (amended) at a concrete input: `1 / 0` evaluates
without raising. -/
theorem c7_eval_total_on_wellformed_witness :
    ∃ v, evaluateExprWithSpecIndex
      (GoExpr.binary GoOp.quo (GoExpr.basicLit LitKind.intLit "1")
        (GoExpr.basicLit LitKind.intLit "0")) 3 = Except.ok v :=
  c7_eval_total_on_wellformed.1 _ 3 (by decide)

/-- Counterexample to claim C6 as stated: two sibling constants whose
declared builtin types have different kinds (`int` and `string`) are
nevertheless grouped into an enum — `typesEqual` compares only the
coarse shape, not the builtin kind (nor named-type identity). -/
theorem c6_grouping_counterexample :
    (tryGroupAsEnum [cInt, cStr] "example.com/pkg" "pkg" "").isSome = true
    ∧ cInt.typ = some (V2Type.builtin BuiltinKind.int)
    ∧ cStr.typ = some (V2Type.builtin BuiltinKind.string)
    ∧ claimTypeIdentity (V2Type.builtin BuiltinKind.int)
        (V2Type.builtin BuiltinKind.string) = false :=
  ⟨rfl, rfl, rfl, rfl⟩

/-- Claim C6 (amended): a block's sibling constants group into an enum
exactly when there are at least 2 constants, every constant has a
non-null type, and all the types share the same coarse shape — all
builtin types (of any kinds) or all named types (of any declarations);
otherwise grouping is rejected, and a successful grouping keeps the
constants, in order, as the enum's members. -/
theorem c6_grouping_characterization :
    ∀ (constants : List Constant) (pkgPath pkgName doc : String),
      ((tryGroupAsEnum constants pkgPath pkgName doc).isSome = true ↔
        (2 ≤ constants.length ∧ (∀ c ∈ constants, c.typ.isSome = true) ∧
          ((∀ c ∈ constants, isBuiltinType c.typ = true) ∨
           (∀ c ∈ constants, isNamedType c.typ = true))))
      ∧ (∀ e, tryGroupAsEnum constants pkgPath pkgName doc = some e →
          e.members = constants) := by
  intro constants pkgPath pkgName doc
  refine ⟨?_, tryGroup_members constants pkgPath pkgName doc⟩
  match constants with
  | [] => simp [tryGroupAsEnum]
  | c0 :: rest =>
    rw [tryGroup_isSome_iff]
    constructor
    · rintro ⟨hlen, hsome0, hrest⟩
      obtain ⟨ft, hft⟩ := Option.isSome_iff_exists.mp hsome0
      refine ⟨hlen, ?_, ?_⟩
      · intro c hc
        rcases List.mem_cons.mp hc with hc | hc
        · subst hc; exact hsome0
        · exact (hrest c hc).1
      · by_cases hb : isBuiltinType c0.typ = true
        · left
          intro c hc
          rcases List.mem_cons.mp hc with hc | hc
          · subst hc; exact hb
          · obtain ⟨k, hk⟩ := isBuiltinType_eq_true _ hb
            have := (hrest c hc).2
            rw [hk, typesEqual_builtin_left] at this
            exact this
        · by_cases hn : isNamedType c0.typ = true
          · right
            intro c hc
            rcases List.mem_cons.mp hc with hc | hc
            · subst hc; exact hn
            · obtain ⟨info, args, hk⟩ := isNamedType_eq_true _ hn
              have := (hrest c hc).2
              rw [hk, typesEqual_named_left] at this
              exact this
          · exfalso
            have hrne : rest ≠ [] := by
              intro hr
              subst hr
              simp at hlen
            obtain ⟨c1, hc1⟩ := List.exists_mem_of_ne_nil rest hrne
            have := (hrest c1 hc1).2
            rw [hft] at this
            rw [typesEqual_none_left ft c1.typ
              (by rw [← hft]; exact Bool.not_eq_true _ ▸ (by simpa using hb))
              (by rw [← hft]; exact Bool.not_eq_true _ ▸ (by simpa using hn))] at this
            exact Bool.false_ne_true this
    · rintro ⟨hlen, hsome, hshape⟩
      refine ⟨hlen, hsome c0 (List.mem_cons_self c0 rest), ?_⟩
      intro c hc
      refine ⟨hsome c (List.mem_cons_of_mem c0 hc), ?_⟩
      rcases hshape with hsh | hsh
      · obtain ⟨k, hk⟩ := isBuiltinType_eq_true _ (hsh c0 (List.mem_cons_self c0 rest))
        rw [hk, typesEqual_builtin_left]
        exact hsh c (List.mem_cons_of_mem c0 hc)
      · obtain ⟨info, args, hk⟩ := isNamedType_eq_true _ (hsh c0 (List.mem_cons_self c0 rest))
        rw [hk, typesEqual_named_left]
        exact hsh c (List.mem_cons_of_mem c0 hc)

/-- Witness for C6 (amended) at a concrete input: the mixed-kind builtin
pair satisfies the code's grouping condition. -/
theorem c6_grouping_characterization_witness :
    (tryGroupAsEnum [cInt, cStr] "example.com/pkg" "pkg" "").isSome = true :=
  (c6_grouping_characterization [cInt, cStr] "example.com/pkg" "pkg" "").1.mpr
    (by refine ⟨by decide, ?_, Or.inl ?_⟩ <;> decide)

/-- Inversion of a successful `Except` bind. -/
theorem bind_ok_inv {γ α β : Type} {x : Except γ α} {f : α → Except γ β} {b : β}
    (h : (x >>= f) = Except.ok b) : ∃ a, x = Except.ok a ∧ f a = Except.ok b := by
  cases x with
  | error e => exact Except.noConfusion h
  | ok a => exact ⟨a, rfl, h⟩

/-- Errors of the explicit name loop: one `unexportedConstant` per
non-exported name, in order. -/
theorem parseNamesExplicit_errs (d : ParseData) (values : List GoExpr)
    (si : Nat) (t : Option V2Type) (te : Option Nat) :
    ∀ (l : List (Nat × GoIdent)) (errs : List ParseErr) (cs : List Constant),
      parseNamesExplicit d values si t te l = Except.ok (errs, cs) →
      errs = (l.filter (fun p => !isExportedName p.2.name)).map
        (fun p => ParseErr.unexportedConstant p.2.name)
  | [], errs, cs, h => by
    simp only [parseNamesExplicit] at h
    cases h
    rfl
  | (i, name) :: more, errs, cs, h => by
    simp only [parseNamesExplicit] at h
    by_cases hex : isExportedName name.name
    · rw [if_neg (by simp [hex])] at h
      obtain ⟨v, hv, h⟩ := bind_ok_inv h
      obtain ⟨p, hp, h⟩ := bind_ok_inv h
      cases h
      simp only [List.filter_cons, List.map_cons]
      rw [if_neg (by simp [hex])]
      exact parseNamesExplicit_errs d values si t te more p.1 p.2 hp
    · rw [if_pos (by simp [hex])] at h
      obtain ⟨p, hp, h⟩ := bind_ok_inv h
      cases h
      simp only [List.filter_cons, List.map_cons]
      rw [if_pos (by simp [hex])]
      rw [parseNamesExplicit_errs d values si t te more p.1 p.2 hp]
      simp only [List.map_cons]

/-- Pushing the index enumeration through the filter-and-map of the
unexported names. -/
theorem enumFrom_unexported_errs (names : List GoIdent) : ∀ n : Nat,
    ((List.enumFrom n names).filter (fun p => !isExportedName p.2.name)).map
        (fun p => ParseErr.unexportedConstant p.2.name) =
      (names.filter (fun nm => !isExportedName nm.name)).map
        (fun nm => ParseErr.unexportedConstant nm.name) := by
  induction names with
  | nil => intro n; rfl
  | cons x xs ih =>
    intro n
    simp only [List.enumFrom, List.filter_cons]
    by_cases hx : isExportedName x.name
    · rw [if_neg (by simp [hx]), if_neg (by simp [hx])]
      exact ih (n + 1)
    · rw [if_pos (by simp [hx]), if_pos (by simp [hx])]
      simp only [List.map_cons]
      rw [ih (n + 1)]

/-- Errors of the explicit spec loop: the concatenation, across specs in
order, of one error per non-exported name. -/
theorem parseSpecsExplicit_errs (d : ParseData) :
    ∀ (specs : List GoSpec) (si : Nat) (t : Option V2Type) (te : Option Nat)
      (errs : List ParseErr) (cs : List Constant),
      parseSpecsExplicit d specs si t te = Except.ok (errs, cs) →
      errs = unexportedErrsOf specs
  | [], si, t, te, errs, cs, h => by
    simp only [parseSpecsExplicit] at h
    cases h
    rfl
  | GoSpec.otherSpec :: rest, si, t, te, errs, cs, h => by
    simp only [parseSpecsExplicit] at h
    have := parseSpecsExplicit_errs d rest (si + 1) t te errs cs h
    simpa [unexportedErrsOf] using this
  | GoSpec.valueSpec names typ values :: rest, si, t, te, errs, cs, h => by
    simp only [parseSpecsExplicit] at h
    obtain ⟨p1, hp1, h⟩ := bind_ok_inv h
    obtain ⟨p2, hp2, h⟩ := bind_ok_inv h
    cases h
    have h1 := parseNamesExplicit_errs d values si _ _ names.enum p1.1 p1.2 hp1
    have h2 := parseSpecsExplicit_errs d rest (si + 1) _ _ p2.1 p2.2 hp2
    simp only [unexportedErrsOf, List.flatMap_cons]
    rw [h1, h2]
    have he : names.enum = List.enumFrom 0 names := rfl
    rw [he, enumFrom_unexported_errs names 0]
    rfl

/-- The auto-mode name loop never records an error. -/
theorem parseNamesAuto_errs (d : ParseData) (values : List GoExpr)
    (si : Nat) (t : Option V2Type) (te : Option Nat) :
    ∀ (l : List (Nat × GoIdent)) (errs : List ParseErr) (cs : List Constant),
      parseNamesAuto d values si t te l = Except.ok (errs, cs) → errs = []
  | [], errs, cs, h => by
    simp only [parseNamesAuto] at h
    cases h
    rfl
  | (i, name) :: more, errs, cs, h => by
    simp only [parseNamesAuto] at h
    by_cases hex : isExportedName name.name
    · rw [if_neg (by simp [hex])] at h
      obtain ⟨v, hv, h⟩ := bind_ok_inv h
      obtain ⟨p, hp, h⟩ := bind_ok_inv h
      cases h
      exact parseNamesAuto_errs d values si t te more p.1 p.2 hp
    · rw [if_pos (by simp [hex])] at h
      exact parseNamesAuto_errs d values si t te more errs cs h

/-- The auto-mode spec loop never records an error. -/
theorem parseSpecsAuto_errs (d : ParseData) :
    ∀ (specs : List GoSpec) (si : Nat) (t : Option V2Type) (te : Option Nat)
      (errs : List ParseErr) (cs : List Constant),
      parseSpecsAuto d specs si t te = Except.ok (errs, cs) → errs = []
  | [], si, t, te, errs, cs, h => by
    simp only [parseSpecsAuto] at h
    cases h
    rfl
  | GoSpec.otherSpec :: rest, si, t, te, errs, cs, h =>
    parseSpecsAuto_errs d rest (si + 1) t te errs cs h
  | GoSpec.valueSpec names typ values :: rest, si, t, te, errs, cs, h => by
    simp only [parseSpecsAuto] at h
    obtain ⟨p1, hp1, h⟩ := bind_ok_inv h
    obtain ⟨p2, hp2, h⟩ := bind_ok_inv h
    cases h
    have h1 := parseNamesAuto_errs d values si _ _ names.enum p1.1 p1.2 hp1
    have h2 := parseSpecsAuto_errs d rest (si + 1) _ _ p2.1 p2.2 hp2
    rw [h1, h2]
    rfl

/-- Claim C8: in explicit-export mode a non-constant block produces an
`invalidConstant` export-directive error (and no results), and a
constant block produces exactly one `unexportedConstant` error per
non-externally-visible name, in order, while processing continues across
the remaining names and specs; in auto-export mode a non-constant block
yields no results and no error, and no input ever produces an
export-directive error — non-visible names are skipped silently. -/
theorem c8_export_modes :
    (∀ d : ParseData, d.decl.tok ≠ DeclTok.constTok →
        Parse d = Except.ok ([ParseErr.invalidConstant], []))
    ∧ (∀ (d : ParseData) (errs : List ParseErr) (res : List ParseResult),
        d.decl.tok = DeclTok.constTok →
        Parse d = Except.ok (errs, res) →
        errs = unexportedErrsOf d.decl.specs)
    ∧ (∀ d : ParseData, d.decl.tok ≠ DeclTok.constTok →
        ParseWithoutDirective d = Except.ok ([], []))
    ∧ (∀ (d : ParseData) (errs : List ParseErr) (res : List ParseResult),
        ParseWithoutDirective d = Except.ok (errs, res) → errs = []) := by
  refine ⟨?_, ?_, ?_, ?_⟩
  · intro d h
    simp only [Parse]
    rw [if_pos h]
  · intro d errs res htok h
    simp only [Parse] at h
    rw [if_neg (by simp [htok])] at h
    obtain ⟨p, hp, h⟩ := bind_ok_inv h
    cases h
    exact parseSpecsExplicit_errs d d.decl.specs 0 none none p.1 p.2 hp
  · intro d h
    simp only [ParseWithoutDirective]
    rw [if_pos h]
  · intro d errs res h
    simp only [ParseWithoutDirective] at h
    by_cases htok : d.decl.tok = DeclTok.constTok
    · rw [if_neg (by simp [htok])] at h
      obtain ⟨p, hp, h⟩ := bind_ok_inv h
      cases h
      exact parseSpecsAuto_errs d d.decl.specs 0 none none p.1 p.2 hp
    · rw [if_pos (by simp [htok])] at h
      cases h
      rfl

/-- Witness for C8 at concrete inputs: a `var` block in explicit mode
errors with `invalidConstant`, and the mixed-visibility constant block
reports exactly the one unexported name. -/
theorem c8_export_modes_witness :
    Parse pdVar = Except.ok ([ParseErr.invalidConstant], [])
    ∧ ParseWithoutDirective pdVar = Except.ok ([], []) :=
  ⟨c8_export_modes.1 pdVar (by decide), c8_export_modes.2.2.1 pdVar (by decide)⟩

/-- `BuilderEvolves` is reflexive. -/
theorem BuilderEvolves.refl (b : Builder) : BuilderEvolves b b :=
  ⟨fun _ _ h => h, Nat.le_refl _, fun _ _ => Eq.refl _, Eq.refl _⟩

/-- `BuilderEvolves` is transitive. -/
theorem BuilderEvolves.trans {a b c : Builder}
    (h1 : BuilderEvolves a b) (h2 : BuilderEvolves b c) : BuilderEvolves a c := by
  obtain ⟨k1, l1, p1, e1⟩ := h1
  obtain ⟨k2, l2, p2, e2⟩ := h2
  refine ⟨fun k n h => k2 k n (k1 k n h), Nat.le_trans l1 l2, ?_, e2.trans e1⟩
  intro i hi
  rw [p2 i (Nat.lt_of_lt_of_le hi l1), p1 i hi]

/-- Keys are found after an append exactly as before when present. -/
theorem keyFind_append_of_some (l : List ((String × String) × Nat))
    (m : List ((String × String) × Nat)) (k : String × String) (n : Nat)
    (h : keyFind l k = some n) : keyFind (l ++ m) k = some n := by
  induction l with
  | nil => simp [keyFind, List.find?] at h
  | cons p rest ih =>
    simp only [keyFind, List.find?] at h ⊢
    cases hpk : (p.1 = k : Bool) with
    | true => simpa [hpk] using h
    | false =>
      rw [hpk] at h
      simpa [hpk, keyFind] using ih (by simpa [keyFind] using h)

/-- `setTypAt` preserves entries at other indices and list length. -/
theorem setTypAt_getElem? (l : List SDecl) (j : Nat) (ty : SType) :
    ∀ i, i ≠ j → (setTypAt l j ty)[i]? = l[i]? := by
  induction l generalizing j with
  | nil => intro i _; simp [setTypAt]
  | cons d rest ih =>
    intro i hij
    cases j with
    | zero =>
      cases i with
      | zero => exact absurd rfl hij
      | succ i2 => simp [setTypAt]
    | succ j2 =>
      cases i with
      | zero => simp [setTypAt]
      | succ i2 =>
        simp only [setTypAt, List.getElem?_cons_succ]
        exact ih j2 i2 (fun he => hij (by rw [he]))

/-- `setTypAt` preserves length. -/
theorem setTypAt_length (l : List SDecl) (j : Nat) (ty : SType) :
    (setTypAt l j ty).length = l.length := by
  induction l generalizing j with
  | nil => rfl
  | cons d rest ih =>
    cases j with
    | zero => rfl
    | succ j2 => simpa [setTypAt] using ih j2

/-- The evolution step performed by a fresh reservation. -/
theorem reserveDecl_evolves (b : Builder) (k : String × String) (td : TypeDeclV2) :
    BuilderEvolves b (reserveDecl b k td).1 := by
  refine ⟨?_, ?_, ?_, rfl⟩
  · intro k2 n h
    exact keyFind_append_of_some _ _ _ _ h
  · simp [reserveDecl]
  · intro i hi
    simp only [reserveDecl]
    rw [List.getElem?_append_left hi]

/-- Every successful builder call evolves the state monotonically: id-map
bindings persist unchanged, declaration entries below the incoming length
are untouched, the declaration list only grows, and enums are
untouched. -/
theorem buildRun_pres : ∀ (fuel : Nat) (env : Env) (b : Builder) (job : BJob)
    (b2 : Builder) (out : BOut),
    buildRun env fuel b job = Except.ok (b2, out) → BuilderEvolves b b2 := by
  intro fuel
  induction fuel with
  | zero =>
    intro env b job b2 out h
    exact Except.noConfusion h
  | succ fuel ih =>
    intro env b job b2 out h
    cases job with
    | tyJ ot =>
      cases ot with
      | none =>
        cases h
        exact BuilderEvolves.refl b
      | some t =>
        cases t with
        | builtin kind =>
          cases h
          exact BuilderEvolves.refl b
        | named info args =>
          simp only [buildRun] at h
          by_cases hcfg : info.pkgPath = "encore.dev/config"
          · rw [if_pos hcfg] at h
            exact ih env b _ b2 out h
          · rw [if_neg hcfg] at h
            cases henv : envFind env (info.pkgPath, info.name) with
            | none =>
              rw [henv] at h
              exact Except.noConfusion h
            | some td =>
              rw [henv] at h
              obtain ⟨⟨bA, outA⟩, hA, h⟩ := bind_ok_inv h
              have eU : BuilderEvolves b
                  { b with usedNamedTypes :=
                      fun q => q = (info.pkgPath, info.name) || b.usedNamedTypes q } :=
                ⟨fun _ _ hh => hh, Nat.le_refl _, fun _ _ => Eq.refl _, Eq.refl _⟩
              have eA : BuilderEvolves b bA :=
                eU.trans (ih env _ _ bA outA hA)
              cases outA with
              | idO n =>
                obtain ⟨⟨bB, outB⟩, hB, h⟩ := bind_ok_inv h
                have eB : BuilderEvolves bA bB := ih env bA _ bB outB hB
                cases outB with
                | tysO args2 =>
                  cases h
                  exact eA.trans eB
                | tyO x => exact Except.noConfusion h
                | fldsO x => exact Except.noConfusion h
                | idO x => exact Except.noConfusion h
              | tyO x => exact Except.noConfusion h
              | tysO x => exact Except.noConfusion h
              | fldsO x => exact Except.noConfusion h
        | struct fields =>
          simp only [buildRun] at h
          obtain ⟨⟨bA, outA⟩, hA, h⟩ := bind_ok_inv h
          have eA : BuilderEvolves b bA := ih env b _ bA outA hA
          cases outA with
          | fldsO fs =>
            cases h
            exact eA
          | tyO x => exact Except.noConfusion h
          | tysO x => exact Except.noConfusion h
          | idO x => exact Except.noConfusion h
        | map k v =>
          simp only [buildRun] at h
          obtain ⟨⟨bA, outA⟩, hA, h⟩ := bind_ok_inv h
          obtain ⟨⟨bB, outB⟩, hB, h⟩ := bind_ok_inv h
          have eA : BuilderEvolves b bA := ih env b _ bA outA hA
          have eB : BuilderEvolves bA bB := ih env bA _ bB outB hB
          cases outA with
          | tyO k2 =>
            cases outB with
            | tyO v2 =>
              cases h
              exact eA.trans eB
            | tysO x => exact Except.noConfusion h
            | fldsO x => exact Except.noConfusion h
            | idO x => exact Except.noConfusion h
          | tysO x =>
            cases outB <;> exact Except.noConfusion h
          | fldsO x =>
            cases outB <;> exact Except.noConfusion h
          | idO x =>
            cases outB <;> exact Except.noConfusion h
        | list len elem =>
          simp only [buildRun] at h
          by_cases hbytes : (decide (0 ≤ len) && IsBuiltinKindUint8 elem) = true
          · rw [if_pos hbytes] at h
            cases h
            exact BuilderEvolves.refl b
          · rw [if_neg hbytes] at h
            obtain ⟨⟨bA, outA⟩, hA, h⟩ := bind_ok_inv h
            have eA : BuilderEvolves b bA := ih env b _ bA outA hA
            cases outA with
            | tyO e2 =>
              cases h
              exact eA
            | tysO x => exact Except.noConfusion h
            | fldsO x => exact Except.noConfusion h
            | idO x => exact Except.noConfusion h
        | pointer elem =>
          simp only [buildRun] at h
          obtain ⟨⟨bA, outA⟩, hA, h⟩ := bind_ok_inv h
          have eA : BuilderEvolves b bA := ih env b _ bA outA hA
          cases outA with
          | tyO e2 =>
            cases h
            exact eA
          | tysO x => exact Except.noConfusion h
          | fldsO x => exact Except.noConfusion h
          | idO x => exact Except.noConfusion h
        | option v =>
          simp only [buildRun] at h
          obtain ⟨⟨bA, outA⟩, hA, h⟩ := bind_ok_inv h
          have eA : BuilderEvolves b bA := ih env b _ bA outA hA
          cases outA with
          | tyO e2 =>
            cases h
            exact eA
          | tysO x => exact Except.noConfusion h
          | fldsO x => exact Except.noConfusion h
          | idO x => exact Except.noConfusion h
        | typeParamRef declKey idx =>
          simp only [buildRun] at h
          cases henv : envFind env declKey with
          | none =>
            rw [henv] at h
            exact Except.noConfusion h
          | some td =>
            rw [henv] at h
            obtain ⟨⟨bA, outA⟩, hA, h⟩ := bind_ok_inv h
            have eA : BuilderEvolves b bA := ih env b _ bA outA hA
            cases outA with
            | idO n =>
              cases h
              exact eA
            | tyO x => exact Except.noConfusion h
            | tysO x => exact Except.noConfusion h
            | fldsO x => exact Except.noConfusion h
        | other =>
          cases h
          exact ⟨fun _ _ hh => hh, Nat.le_refl _, fun _ _ => rfl, rfl⟩
    | tysJ ts =>
      cases ts with
      | nil =>
        cases h
        exact BuilderEvolves.refl b
      | cons t rest =>
        simp only [buildRun] at h
        obtain ⟨⟨bA, outA⟩, hA, h⟩ := bind_ok_inv h
        obtain ⟨⟨bB, outB⟩, hB, h⟩ := bind_ok_inv h
        have eA : BuilderEvolves b bA := ih env b _ bA outA hA
        have eB : BuilderEvolves bA bB := ih env bA _ bB outB hB
        cases outA with
        | tyO t2 =>
          cases outB with
          | tysO rest2 =>
            cases h
            exact eA.trans eB
          | tyO x => exact Except.noConfusion h
          | fldsO x => exact Except.noConfusion h
          | idO x => exact Except.noConfusion h
        | tysO x => cases outB <;> exact Except.noConfusion h
        | fldsO x => cases outB <;> exact Except.noConfusion h
        | idO x => cases outB <;> exact Except.noConfusion h
    | fldsJ fs =>
      cases fs with
      | nil =>
        cases h
        exact BuilderEvolves.refl b
      | cons f rest =>
        obtain ⟨nameOpt, fdoc, ft⟩ := f
        cases nameOpt with
        | none =>
          simp only [buildRun] at h
          exact ih env b _ b2 out h
        | some nm =>
          simp only [buildRun] at h
          obtain ⟨⟨bA, outA⟩, hA, h⟩ := bind_ok_inv h
          obtain ⟨⟨bB, outB⟩, hB, h⟩ := bind_ok_inv h
          have eA : BuilderEvolves b bA := ih env b _ bA outA hA
          have eB : BuilderEvolves bA bB := ih env bA _ bB outB hB
          cases outA with
          | tyO ft2 =>
            cases outB with
            | fldsO rest2 =>
              dsimp only at h
              by_cases hex : isExportedName nm = true
              · rw [if_pos hex] at h
                cases h
                exact eA.trans eB
              · rw [if_neg hex] at h
                cases h
                exact eA.trans eB
            | tyO x => exact Except.noConfusion h
            | tysO x => exact Except.noConfusion h
            | idO x => exact Except.noConfusion h
          | tysO x => cases outB <;> exact Except.noConfusion h
          | fldsO x => cases outB <;> exact Except.noConfusion h
          | idO x => cases outB <;> exact Except.noConfusion h
    | cfgJ info args =>
      simp only [buildRun] at h
      by_cases hv : info.name = "Value" ∨ info.name = "Values"
      · rw [if_pos hv] at h
        cases hargs : args[0]? with
        | none =>
          rw [hargs] at h
          exact Except.noConfusion h
        | some a0 =>
          rw [hargs] at h
          obtain ⟨⟨bA, outA⟩, hA, h⟩ := bind_ok_inv h
          have eA : BuilderEvolves b bA := ih env b _ bA outA hA
          cases outA with
          | tyO elem =>
            cases h
            exact eA
          | tysO x => exact Except.noConfusion h
          | fldsO x => exact Except.noConfusion h
          | idO x => exact Except.noConfusion h
      · rw [if_neg hv] at h
        cases henv : envFind env (info.pkgPath, info.name) with
        | none =>
          rw [henv] at h
          exact Except.noConfusion h
        | some td =>
          rw [henv] at h
          dsimp only at h
          cases htd : td.typ with
          | named info2 args2 =>
            rw [htd] at h
            exact ih env b _ b2 out h
          | builtin k => rw [htd] at h; cases h; exact ⟨fun _ _ hh => hh, Nat.le_refl _, fun _ _ => rfl, rfl⟩
          | struct fs => rw [htd] at h; cases h; exact ⟨fun _ _ hh => hh, Nat.le_refl _, fun _ _ => rfl, rfl⟩
          | list l e => rw [htd] at h; cases h; exact ⟨fun _ _ hh => hh, Nat.le_refl _, fun _ _ => rfl, rfl⟩
          | map k v => rw [htd] at h; cases h; exact ⟨fun _ _ hh => hh, Nat.le_refl _, fun _ _ => rfl, rfl⟩
          | pointer e => rw [htd] at h; cases h; exact ⟨fun _ _ hh => hh, Nat.le_refl _, fun _ _ => rfl, rfl⟩
          | option v => rw [htd] at h; cases h; exact ⟨fun _ _ hh => hh, Nat.le_refl _, fun _ _ => rfl, rfl⟩
          | typeParamRef dk i => rw [htd] at h; cases h; exact ⟨fun _ _ hh => hh, Nat.le_refl _, fun _ _ => rfl, rfl⟩
          | other => rw [htd] at h; cases h; exact ⟨fun _ _ hh => hh, Nat.le_refl _, fun _ _ => rfl, rfl⟩
    | declJ d =>
      cases d with
      | otherDecl => exact Except.noConfusion h
      | typeDecl td =>
        simp only [buildRun] at h
        cases hpn : td.pkgName with
        | none =>
          rw [hpn] at h
          exact Except.noConfusion h
        | some pkgName =>
          rw [hpn] at h
          dsimp only at h
          cases hk : keyFind b.decls (td.pkgPath, pkgName) with
          | some n =>
            rw [hk] at h
            cases h
            exact BuilderEvolves.refl b
          | none =>
            rw [hk] at h
            obtain ⟨⟨bA, outA⟩, hA, h⟩ := bind_ok_inv h
            have eR : BuilderEvolves b
                (reserveDecl b (td.pkgPath, pkgName) td).1 :=
              reserveDecl_evolves b (td.pkgPath, pkgName) td
            have eA : BuilderEvolves (reserveDecl b (td.pkgPath, pkgName) td).1 bA :=
              ih env _ _ bA outA hA
            cases outA with
            | tyO ty =>
              cases h
              have eRA : BuilderEvolves b bA := eR.trans eA
              refine ⟨fun k2 n2 hk2 => eRA.1 k2 n2 hk2, ?_, ?_, eRA.2.2.2⟩
              · show b.mdDecls.length ≤ (setTypAt bA.mdDecls
                  ((reserveDecl b (td.pkgPath, pkgName) td).2) ty).length
                rw [setTypAt_length]
                exact eRA.2.1
              · intro i hi
                show (setTypAt bA.mdDecls
                  ((reserveDecl b (td.pkgPath, pkgName) td).2) ty)[i]? = b.mdDecls[i]?
                have hne : i ≠ (reserveDecl b (td.pkgPath, pkgName) td).2 := by
                  have hres : (reserveDecl b (td.pkgPath, pkgName) td).2 =
                    b.mdDecls.length := rfl
                  omega
                rw [setTypAt_getElem? _ _ _ i hne]
                exact eRA.2.2.1 i hi
            | tysO x => exact Except.noConfusion h
            | fldsO x => exact Except.noConfusion h
            | idO x => exact Except.noConfusion h

/-- The accumulator form of the member loop of `addEnumToMeta` equals a
filter over the converted members. -/
theorem enumMembers_foldl (ms : List Constant) : ∀ acc : List ConstantDecl,
    ms.foldl (fun acc m =>
      let memberDecl := enumMemberDecl m
      if memberDecl.value.isSome then acc ++ [memberDecl] else acc) acc =
    acc ++ (ms.map enumMemberDecl).filter (fun md => md.value.isSome) := by
  induction ms with
  | nil => intro acc; simp
  | cons m rest ih =>
    intro acc
    simp only [List.foldl_cons, List.map_cons, List.filter_cons]
    by_cases hm : (enumMemberDecl m).value.isSome = true
    · rw [if_pos hm, if_pos hm, ih]
      simp
    · rw [if_neg hm, if_neg hm, ih]

/-- A converted member survives exactly when its kind is not float. -/
theorem enumMemberDecl_value_isSome (m : Constant) :
    (enumMemberDecl m).value.isSome = true ↔ m.value.kind ≠ ConstantKind.float := by
  cases hk : m.value.kind <;> simp [enumMemberDecl, hk]

/-- Claim C10: converting an enum to metadata keeps exactly the members
whose value kind is string, int or bool, in their original order (float
members are silently omitted), and when no member survives no enum
declaration is added at all. -/
theorem c10_enum_member_filtering :
    ∀ (env : Env) (fuel : Nat) (b : Builder) (e : Enum) (b2 : Builder),
      addEnumToMeta env fuel b e = Except.ok b2 →
      ((e.members.filter (fun m => m.value.kind ≠ ConstantKind.float)) = [] →
        b2.mdEnums = b.mdEnums)
      ∧ ((e.members.filter (fun m => m.value.kind ≠ ConstantKind.float)) ≠ [] →
        ∃ ut, b2.mdEnums = b.mdEnums ++
          [{ name := e.name, doc := e.doc, pkgName := e.pkgName,
             underlyingType := ut,
             members := (e.members.filter
               (fun m => m.value.kind ≠ ConstantKind.float)).map enumMemberDecl }]) := by
  intro env fuel b e b2 h
  have hfm : ∀ (ms : List Constant),
      (ms.map enumMemberDecl).filter (fun md => md.value.isSome) =
      (ms.filter (fun m => m.value.kind ≠ ConstantKind.float)).map enumMemberDecl := by
    intro ms
    induction ms with
    | nil => rfl
    | cons m rest ih =>
      simp only [List.map_cons, List.filter_cons]
      by_cases hm : (enumMemberDecl m).value.isSome = true
      · rw [if_pos hm, if_pos (by simpa using (enumMemberDecl_value_isSome m).mp hm),
          List.map_cons, ih]
      · rw [if_neg hm, if_neg ?hneg, ih]
        case hneg =>
          simp only [decide_eq_true_eq]
          intro hc
          exact hm ((enumMemberDecl_value_isSome m).mpr (by simpa using hc))
  simp only [addEnumToMeta] at h
  rw [enumMembers_foldl e.members [], List.nil_append, hfm e.members] at h
  have main : ∀ (bA : Builder) (ut : SType), bA.mdEnums = b.mdEnums →
      (if ((e.members.filter (fun m => m.value.kind ≠ ConstantKind.float)).map
            enumMemberDecl).length > 0 then
        Except.ok { bA with mdEnums := bA.mdEnums ++
          [{ name := e.name, doc := e.doc, pkgName := e.pkgName,
             underlyingType := ut,
             members := (e.members.filter
               (fun m => m.value.kind ≠ ConstantKind.float)).map enumMemberDecl }] }
      else Except.ok bA : Except BuildAbort Builder) = Except.ok b2 →
      ((e.members.filter (fun m => m.value.kind ≠ ConstantKind.float)) = [] →
        b2.mdEnums = b.mdEnums)
      ∧ ((e.members.filter (fun m => m.value.kind ≠ ConstantKind.float)) ≠ [] →
        ∃ ut2, b2.mdEnums = b.mdEnums ++
          [{ name := e.name, doc := e.doc, pkgName := e.pkgName,
             underlyingType := ut2,
             members := (e.members.filter
               (fun m => m.value.kind ≠ ConstantKind.float)).map enumMemberDecl }]) := by
    intro bA ut hAe hif
    by_cases hS : (e.members.filter (fun m => m.value.kind ≠ ConstantKind.float)) = []
    · rw [if_neg (by rw [hS]; simp)] at hif
      cases hif
      exact ⟨fun _ => hAe, fun hne => absurd hS hne⟩
    · rw [if_pos (by simpa using List.length_pos.mpr hS)] at hif
      cases hif
      refine ⟨fun hemp => absurd hemp hS, fun _ => ⟨ut, ?_⟩⟩
      simp [hAe]
  cases hu : e.underlyingType with
  | none =>
    rw [hu] at h
    obtain ⟨y, hy, h⟩ := bind_ok_inv h
    cases hy
    exact main b SType.nil rfl h
  | some t =>
    rw [hu] at h
    obtain ⟨⟨bA, ut⟩, hy, h⟩ := bind_ok_inv h
    have hAe : bA.mdEnums = b.mdEnums := by
      simp only [schemaType] at hy
      cases hbr : buildRun env fuel b (BJob.tyJ (some t)) with
      | error er => rw [hbr] at hy; exact Except.noConfusion hy
      | ok p =>
        rw [hbr] at hy
        obtain ⟨b3, out3⟩ := p
        cases out3 with
        | tyO t3 =>
          cases hy
          exact (buildRun_pres fuel env b _ _ _ hbr).2.2.2
        | tysO x => exact Except.noConfusion hy
        | fldsO x => exact Except.noConfusion hy
        | idO x => exact Except.noConfusion hy
    exact main bA ut hAe h

/-- Witness for C10 at a concrete input: the mixed-kind enum keeps its
string, int and bool members (in order) and drops the float member. -/
theorem c10_enum_member_filtering_witness :
    ∃ b2, addEnumToMeta [] 5 emptyBuilder enumMixed = Except.ok b2 ∧
      ∃ ut, b2.mdEnums = emptyBuilder.mdEnums ++
        [{ name := enumMixed.name, doc := enumMixed.doc,
           pkgName := enumMixed.pkgName, underlyingType := ut,
           members := (enumMixed.members.filter
             (fun m => m.value.kind ≠ ConstantKind.float)).map enumMemberDecl }] := by
  refine ⟨_, rfl, ?_⟩
  exact (c10_enum_member_filtering [] 5 emptyBuilder enumMixed _ rfl).2
    (List.length_pos.mp (by decide))

/-- A fresh key is found at the end of the map after its append. -/
theorem keyFind_append_self (l : List ((String × String) × Nat))
    (k : String × String) (n : Nat) (h : keyFind l k = none) :
    keyFind (l ++ [(k, n)]) k = some n := by
  induction l with
  | nil => simp [keyFind, List.find?]
  | cons p rest ih =>
    simp only [keyFind, List.find?] at h ⊢
    cases hpk : (p.1 = k : Bool) with
    | true => rw [hpk] at h; exact Option.noConfusion h
    | false =>
      rw [hpk] at h
      have := ih (by simpa [keyFind] using h)
      simpa [keyFind, hpk] using this

/-- A declaration whose identity is already mapped resolves to the mapped
id immediately, without touching the state (the memo path of
`builder.decl`). -/
theorem decl_memo (env : Env) (fuelMid : Nat) (bMid : Builder)
    (td : TypeDeclV2) (pkgName : String) (n : Nat)
    (hpn : td.pkgName = some pkgName)
    (hk : keyFind bMid.decls (td.pkgPath, pkgName) = some n) :
    decl env (fuelMid + 1) bMid (V2Decl.typeDecl td) = Except.ok (bMid, n) := by
  simp only [decl, buildRun, hpn, hk]

/-- A successful `builder.decl` leaves the identity mapped to the
returned id in the final state (both on the memo path and after a fresh
two-phase allocation). -/
theorem decl_success_binding (env : Env) (fuel : Nat) (b : Builder)
    (d : V2Decl) (b2 : Builder) (n : Nat)
    (h : decl env fuel b d = Except.ok (b2, n)) :
    ∃ td pkgName, d = V2Decl.typeDecl td ∧ td.pkgName = some pkgName ∧
      keyFind b2.decls (td.pkgPath, pkgName) = some n := by
  simp only [decl] at h
  cases hbr : buildRun env fuel b (BJob.declJ d) with
  | error e => rw [hbr] at h; exact Except.noConfusion h
  | ok p =>
    rw [hbr] at h
    obtain ⟨b3, out3⟩ := p
    cases out3 with
    | tyO x => exact Except.noConfusion h
    | tysO x => exact Except.noConfusion h
    | fldsO x => exact Except.noConfusion h
    | idO m =>
      cases h
      cases fuel with
      | zero => exact Except.noConfusion hbr
      | succ fuel =>
        cases d with
        | otherDecl => exact Except.noConfusion hbr
        | typeDecl td =>
          simp only [buildRun] at hbr
          cases hpn : td.pkgName with
          | none => rw [hpn] at hbr; exact Except.noConfusion hbr
          | some pkgName =>
            rw [hpn] at hbr
            dsimp only at hbr
            refine ⟨td, pkgName, rfl, hpn, ?_⟩
            cases hk : keyFind b.decls (td.pkgPath, pkgName) with
            | some m2 =>
              rw [hk] at hbr
              cases hbr
              exact hk
            | none =>
              rw [hk] at hbr
              obtain ⟨⟨bA, outA⟩, hA, hbr⟩ := bind_ok_inv hbr
              have hres : keyFind
                  (reserveDecl b (td.pkgPath, pkgName) td).1.decls
                  (td.pkgPath, pkgName) = some b.mdDecls.length :=
                keyFind_append_self _ _ _ hk
              have hbind := (buildRun_pres fuel env _ _ bA outA hA).1
                (td.pkgPath, pkgName) b.mdDecls.length hres
              cases outA with
              | tyO ty =>
                cases hbr
                exact hbind
              | tysO x => exact Except.noConfusion hbr
              | fldsO x => exact Except.noConfusion hbr
              | idO x => exact Except.noConfusion hbr

/-- Claim C2: resolving the same declaration identity twice returns the
identical id both times — every later call after a successful resolution
returns the id reserved by the first call, leaves the builder state
untouched, and appends no new declaration entry. -/
theorem c2_decl_idempotent :
    ∀ (env : Env) (fuel : Nat) (b : Builder) (d : V2Decl) (b2 : Builder)
      (n : Nat),
      decl env fuel b d = Except.ok (b2, n) →
      ∀ fuel2 : Nat, decl env (fuel2 + 1) b2 d = Except.ok (b2, n) := by
  intro env fuel b d b2 n h fuel2
  obtain ⟨td, pkgName, hd, hpn, hk⟩ := decl_success_binding env fuel b d b2 n h
  subst hd
  exact decl_memo env fuel2 b2 td pkgName n hpn hk

/-- Witness for C2 at a concrete input: resolving the self-referential
`Node` declaration twice from a fresh build returns id 0 both times with
no second entry. -/
theorem c2_decl_idempotent_witness :
    ∃ b2, decl envNode 20 emptyBuilder (V2Decl.typeDecl tdNode) =
        Except.ok (b2, 0) ∧
      decl envNode 6 b2 (V2Decl.typeDecl tdNode) = Except.ok (b2, 0) := by
  have hok : declResultIs
      (decl envNode 20 emptyBuilder (V2Decl.typeDecl tdNode)) 0 = true := by
    decide
  cases hrun : decl envNode 20 emptyBuilder (V2Decl.typeDecl tdNode) with
  | error e =>
    rw [hrun] at hok
    simp [declResultIs] at hok
  | ok p =>
    obtain ⟨b2, n2⟩ := p
    rw [hrun] at hok
    simp only [declResultIs, decide_eq_true_eq] at hok
    subst hok
    exact ⟨b2, rfl,
      c2_decl_idempotent envNode 20 emptyBuilder (V2Decl.typeDecl tdNode) b2 0
        hrun 5⟩

/-- Claim C1: `builder.decl` performs two-phase allocation.  On a fresh
identity the reserved id is the next declaration index; the state from
which the underlying type is resolved already holds the id binding and
the placeholder entry (with nil type body); the final state is exactly
the body-resolution result with the placeholder's type patched in; any
recursive resolution of the same identity from any state holding the
reservation returns the reserved id without allocating or changing
anything; and ids are assigned exactly once — existing bindings survive
to the final state unchanged, and the new binding is present there. -/
theorem c1_two_phase_allocation :
    ∀ (env : Env) (fuel : Nat) (b : Builder) (td : TypeDeclV2)
      (pkgName : String) (b2 : Builder) (n : Nat),
      td.pkgName = some pkgName →
      keyFind b.decls (td.pkgPath, pkgName) = none →
      decl env fuel b (V2Decl.typeDecl td) = Except.ok (b2, n) →
      n = b.mdDecls.length
      ∧ keyFind (reserveDecl b (td.pkgPath, pkgName) td).1.decls
          (td.pkgPath, pkgName) = some n
      ∧ (reserveDecl b (td.pkgPath, pkgName) td).1.mdDecls[n]? =
          some { id := n, name := pkgName, typ := SType.nil,
                 typeParams := td.typeParams, doc := td.doc,
                 locPkgName := td.pkgShortName }
      ∧ (∃ bA ty,
          buildRun env (fuel - 1) (reserveDecl b (td.pkgPath, pkgName) td).1
              (BJob.tyJ (some td.typ)) = Except.ok (bA, BOut.tyO ty)
          ∧ b2 = { bA with mdDecls := setTypAt bA.mdDecls n ty })
      ∧ (∀ (bMid : Builder) (fuelMid : Nat),
          keyFind bMid.decls (td.pkgPath, pkgName) = some n →
          decl env (fuelMid + 1) bMid (V2Decl.typeDecl td) =
            Except.ok (bMid, n))
      ∧ (∀ k m, keyFind b.decls k = some m → keyFind b2.decls k = some m)
      ∧ keyFind b2.decls (td.pkgPath, pkgName) = some n := by
  intro env fuel b td pkgName b2 n hpn hfresh h
  simp only [decl] at h
  cases hbr : buildRun env fuel b (BJob.declJ (V2Decl.typeDecl td)) with
  | error e => rw [hbr] at h; exact Except.noConfusion h
  | ok p =>
    rw [hbr] at h
    obtain ⟨b3, out3⟩ := p
    cases out3 with
    | tyO x => exact Except.noConfusion h
    | tysO x => exact Except.noConfusion h
    | fldsO x => exact Except.noConfusion h
    | idO m =>
      cases h
      cases fuel with
      | zero => exact Except.noConfusion hbr
      | succ fuel =>
        simp only [buildRun] at hbr
        rw [hpn] at hbr
        dsimp only at hbr
        rw [hfresh] at hbr
        obtain ⟨⟨bA, outA⟩, hA, hbr⟩ := bind_ok_inv hbr
        cases outA with
        | tysO x => exact Except.noConfusion hbr
        | fldsO x => exact Except.noConfusion hbr
        | idO x => exact Except.noConfusion hbr
        | tyO ty =>
          have hinj := hbr
          dsimp only at hinj
          cases hinj
          have hres : keyFind (reserveDecl b (td.pkgPath, pkgName) td).1.decls
              (td.pkgPath, pkgName) = some b.mdDecls.length :=
            keyFind_append_self _ _ _ hfresh
          have epre : BuilderEvolves b (reserveDecl b (td.pkgPath, pkgName) td).1 :=
            reserveDecl_evolves b (td.pkgPath, pkgName) td
          have eA : BuilderEvolves (reserveDecl b (td.pkgPath, pkgName) td).1 bA :=
            buildRun_pres fuel env _ _ bA _ hA
          refine ⟨?_, hres, ?_, ⟨bA, ty, by simpa using hA, rfl⟩, ?_, ?_, ?_⟩
          · rfl
          · show (b.mdDecls ++ [_])[b.mdDecls.length]? = _
            rw [List.getElem?_append_right (Nat.le_refl _)]
            simp only [Nat.sub_self, List.getElem?_cons_zero, Option.some.injEq]
            rfl
          · intro bMid fuelMid hkMid
            exact decl_memo env fuelMid bMid td pkgName _ hpn hkMid
          · intro k m2 hkm
            exact (epre.trans eA).1 k m2 hkm
          · exact eA.1 _ _ hres

/-- Witness for C1 at a concrete input: the self-referential `Node`
declaration is reserved at id 0 (the next index of the fresh build)
before its body resolves, and the final state maps its identity to 0. -/
theorem c1_two_phase_allocation_witness :
    ∃ b2, decl envNode 20 emptyBuilder (V2Decl.typeDecl tdNode) =
        Except.ok (b2, 0) ∧
      0 = emptyBuilder.mdDecls.length ∧
      keyFind b2.decls ("example.com/pkg", "Node") = some 0 := by
  have hok : declResultIs
      (decl envNode 20 emptyBuilder (V2Decl.typeDecl tdNode)) 0 = true := by
    decide
  cases hrun : decl envNode 20 emptyBuilder (V2Decl.typeDecl tdNode) with
  | error e =>
    rw [hrun] at hok
    simp [declResultIs] at hok
  | ok p =>
    obtain ⟨b2, n2⟩ := p
    rw [hrun] at hok
    simp only [declResultIs, decide_eq_true_eq] at hok
    subst hok
    have h := c1_two_phase_allocation envNode 20 emptyBuilder tdNode "Node" b2 0
      rfl rfl hrun
    exact ⟨b2, rfl, h.1, h.2.2.2.2.2.2⟩

/-- The traversal never touches the metadata, the restored current
declaration, nor the constant/enum groupings: only the seen-set, the
namespace lists and the reference edges evolve. -/
theorem visitRun_frame : ∀ (fuel : Nat) (r : TypeRegistry) (j : VJob),
    (visitRun fuel r j).md = r.md ∧ (visitRun fuel r j).currDecl = r.currDecl
    ∧ (visitRun fuel r j).enums = r.enums
    ∧ (visitRun fuel r j).constants = r.constants := by
  intro fuel
  induction fuel with
  | zero => intro r j; exact ⟨rfl, rfl, rfl, rfl⟩
  | succ fuel ih =>
    intro r j
    obtain ⟨md, nss, seen, refs, cur, cons, enms⟩ := r
    cases j with
    | typeJ t =>
      cases t with
      | nil => exact ⟨rfl, rfl, rfl, rfl⟩
      | builtin k => exact ⟨rfl, rfl, rfl, rfl⟩
      | typeParameter a b => exact ⟨rfl, rfl, rfl, rfl⟩
      | literal => exact ⟨rfl, rfl, rfl, rfl⟩
      | named id args => exact ih _ (VJob.namedJ id args)
      | list e => exact ih _ (VJob.typeJ e)
      | pointer b => exact ih _ (VJob.typeJ b)
      | option v => exact ih _ (VJob.typeJ v)
      | config e il => exact ih _ (VJob.typeJ e)
      | union ts => exact ih _ (VJob.listJ ts)
      | struct fields => exact ih _ (VJob.fieldsJ fields)
      | map k v =>
        have h1 := ih ⟨md, nss, seen, refs, cur, cons, enms⟩ (VJob.typeJ k)
        have h2 := ih (visitRun fuel ⟨md, nss, seen, refs, cur, cons, enms⟩
          (VJob.typeJ k)) (VJob.typeJ v)
        exact ⟨h2.1.trans h1.1, h2.2.1.trans h1.2.1,
          h2.2.2.1.trans h1.2.2.1, h2.2.2.2.trans h1.2.2.2⟩
    | fieldsJ fs =>
      cases fs with
      | nil => exact ⟨rfl, rfl, rfl, rfl⟩
      | cons f rest =>
        obtain ⟨nm, ft⟩ := f
        have h1 := ih ⟨md, nss, seen, refs, cur, cons, enms⟩ (VJob.typeJ ft)
        have h2 := ih (visitRun fuel ⟨md, nss, seen, refs, cur, cons, enms⟩
          (VJob.typeJ ft)) (VJob.fieldsJ rest)
        exact ⟨h2.1.trans h1.1, h2.2.1.trans h1.2.1,
          h2.2.2.1.trans h1.2.2.1, h2.2.2.2.trans h1.2.2.2⟩
    | listJ ts =>
      cases ts with
      | nil => exact ⟨rfl, rfl, rfl, rfl⟩
      | cons t rest =>
        have h1 := ih ⟨md, nss, seen, refs, cur, cons, enms⟩ (VJob.typeJ t)
        have h2 := ih (visitRun fuel ⟨md, nss, seen, refs, cur, cons, enms⟩
          (VJob.typeJ t)) (VJob.listJ rest)
        exact ⟨h2.1.trans h1.1, h2.2.1.trans h1.2.1,
          h2.2.2.1.trans h1.2.2.1, h2.2.2.2.trans h1.2.2.2⟩
    | namedJ tgt args =>
      cases cur with
      | none =>
        simp only [visitRun]
        cases hd : md.decls[tgt]? with
        | none =>
          simp only [hd]
          exact ih _ (VJob.listJ args)
        | some d =>
          simp only [hd]
          have h1 := ih ⟨md, nss, seen, refs, none, cons, enms⟩ (VJob.declJ d)
          have h3 := ih (visitRun fuel ⟨md, nss, seen, refs, none, cons, enms⟩
            (VJob.declJ d)) (VJob.listJ args)
          exact ⟨h3.1.trans h1.1, h3.2.1.trans h1.2.1,
            h3.2.2.1.trans h1.2.2.1, h3.2.2.2.trans h1.2.2.2⟩
      | some c =>
        simp only [visitRun]
        cases hd : md.decls[tgt]? with
        | none =>
          simp only [hd]
          exact ih _ (VJob.listJ args)
        | some d =>
          simp only [hd]
          have h1 := ih ⟨md, nss, seen, addRef refs c.id tgt, some c, cons, enms⟩
            (VJob.declJ d)
          have h3 := ih { visitRun fuel
              ⟨md, nss, seen, addRef refs c.id tgt, some c, cons, enms⟩
              (VJob.declJ d) with
            declRefs := copyRefs (visitRun fuel
              ⟨md, nss, seen, addRef refs c.id tgt, some c, cons, enms⟩
              (VJob.declJ d)).declRefs c.id tgt } (VJob.listJ args)
          exact ⟨h3.1.trans h1.1, h3.2.1.trans h1.2.1,
            h3.2.2.1.trans h1.2.2.1, h3.2.2.2.trans h1.2.2.2⟩
    | declJ d =>
      simp only [visitRun]
      by_cases hseen : seen d.id = true
      · rw [if_pos hseen]
        exact ⟨rfl, rfl, rfl, rfl⟩
      · rw [if_neg hseen]
        have h1 := ih ⟨md, assocAppend nss d.locPkgName d,
          fun i => i = d.id || seen i, refs, some d, cons, enms⟩ (VJob.typeJ d.typ)
        exact ⟨h1.1, rfl, h1.2.2.1, h1.2.2.2⟩

/-- Claim C3: for the two-declaration cycle (declaration A has a struct
field of named type B and declaration B has a struct field of named type
A), after the traversal from a root reaching A both directions of
`IsRecursiveRef` hold. -/
theorem c3_two_node_cycle :
    IsRecursiveRef (getNamedTypes mdCycle ["svc"] 50) 0 1 = true
    ∧ IsRecursiveRef (getNamedTypes mdCycle ["svc"] 50) 1 0 = true := by
  constructor <;> decide

/-- The compaction loop is the stable filter dropping enum-named
declarations. -/
theorem filterCompact_eq_filter (enumNames : List String) :
    ∀ l : List SDecl, filterCompact enumNames l =
      l.filter (fun d => !(enumNames.contains d.name)) := by
  intro l
  induction l with
  | nil => rfl
  | cons d ds ih =>
    simp only [filterCompact, List.filter_cons]
    cases h : enumNames.contains d.name with
    | true => simp [h, ih]
    | false => simp [h, ih]

/-- Setting a present key updates its value; a missing key stays
missing. -/
theorem assocFind_assocSet_self (l : List (String × List α)) (k : String)
    (xs : List α) :
    assocFind (assocSet l k xs) k = (assocFind l k).map (fun _ => xs) := by
  induction l with
  | nil => rfl
  | cons p rest ih =>
    simp only [assocSet, assocFind]
    by_cases hp : p.1 = k
    · rw [if_pos hp]
      simp [assocFind, hp]
    · rw [if_neg hp]
      simp [assocFind, hp, ih]

/-- Setting one key leaves other keys untouched. -/
theorem assocFind_assocSet_ne (l : List (String × List α)) (k k2 : String)
    (xs : List α) (hne : k2 ≠ k) :
    assocFind (assocSet l k xs) k2 = assocFind l k2 := by
  induction l with
  | nil => rfl
  | cons p rest ih =>
    simp only [assocSet, assocFind]
    by_cases hp : p.1 = k
    · rw [if_pos hp]
      have : ¬ (p.1 = k2) := by rw [hp]; exact fun he => hne he.symm
      simp [assocFind, this]
    · rw [if_neg hp]
      by_cases hq : p.1 = k2
      · simp [assocFind, hq]
      · simp [assocFind, hq, ih]

/-- A key outside the key list is not found. -/
theorem assocFind_eq_none_of_not_mem (l : List (String × List α)) (k : String)
    (h : k ∉ l.map Prod.fst) : assocFind l k = none := by
  induction l with
  | nil => rfl
  | cons p rest ih =>
    simp only [List.map_cons, List.mem_cons, not_or] at h
    simp only [assocFind]
    rw [if_neg (fun he => h.1 he.symm)]
    exact ih h.2

/-- The keys after an append-or-update. -/
theorem assocAppend_keys (l : List (String × List α)) (k : String) (x : α) :
    (assocAppend l k x).map Prod.fst =
      if k ∈ l.map Prod.fst then l.map Prod.fst else l.map Prod.fst ++ [k] := by
  induction l with
  | nil => simp [assocAppend]
  | cons p rest ih =>
    simp only [assocAppend]
    by_cases hp : p.1 = k
    · rw [if_pos hp]
      rw [if_pos (by simp [List.map_cons, hp])]
      simp
    · rw [if_neg hp]
      simp only [List.map_cons, ih]
      by_cases hm : k ∈ rest.map Prod.fst
      · rw [if_pos hm, if_pos (by simp [hm])]
      · rw [if_neg hm, if_neg (by
          simp only [List.mem_cons, not_or]
          exact ⟨fun he => hp he.symm, hm⟩)]
        simp

/-- Append-or-update preserves distinctness of keys. -/
theorem assocAppend_keys_nodup (l : List (String × List α)) (k : String)
    (x : α) (h : (l.map Prod.fst).Nodup) :
    ((assocAppend l k x).map Prod.fst).Nodup := by
  rw [assocAppend_keys]
  by_cases hm : k ∈ l.map Prod.fst
  · rw [if_pos hm]
    exact h
  · rw [if_neg hm]
    rw [List.nodup_append]
    refine ⟨h, List.nodup_singleton k, ?_⟩
    intro a ha hb
    simp only [List.mem_singleton] at hb
    subst hb
    exact hm ha

/-- The enum-grouping fold keeps the enum keys distinct. -/
theorem enumFold_keys_nodup : ∀ (es : List EnumDecl) (acc : TypeRegistry),
    (acc.enums.map Prod.fst).Nodup →
    (((es.foldl addEnumStep acc).enums).map Prod.fst).Nodup := by
  intro es
  induction es with
  | nil => intro acc h; exact h
  | cons e rest ih =>
    intro acc h
    simp only [List.foldl_cons]
    apply ih
    simp only [addEnumStep]
    by_cases hp : e.pkgName = ""
    · rw [if_pos hp]; exact h
    · rw [if_neg hp]; exact assocAppend_keys_nodup _ _ _ h

/-- Visiting RPC schemas leaves the enum groupings untouched. -/
theorem rpcFold_enums (fuel : Nat) : ∀ (rpcs : List Rpc) (acc : TypeRegistry),
    (rpcs.foldl (visitRpcStep fuel) acc).enums = acc.enums := by
  intro rpcs
  induction rpcs with
  | nil => intro acc; rfl
  | cons rpc rest ih =>
    intro acc
    simp only [List.foldl_cons]
    rw [ih]
    simp only [visitRpcStep]
    by_cases hp : rpc.accessIsPrivate = true
    · rw [if_neg (by simp [hp])]
    · rw [if_pos (by simp [hp])]
      simp only [Visit]
      rw [(visitRun_frame fuel _ _).2.2.1, (visitRun_frame fuel _ _).2.2.1,
        (visitRun_frame fuel _ _).2.2.1]

/-- Visiting services leaves the enum groupings untouched. -/
theorem svcFold_enums (fuel : Nat) (set : List String) :
    ∀ (svcs : List Svc) (acc : TypeRegistry),
    (svcs.foldl (visitSvcStep fuel set) acc).enums = acc.enums := by
  intro svcs
  induction svcs with
  | nil => intro acc; rfl
  | cons svc rest ih =>
    intro acc
    simp only [List.foldl_cons]
    rw [ih]
    simp only [visitSvcStep]
    by_cases hs : set.contains svc.name = true
    · rw [if_pos hs]
      exact rpcFold_enums fuel svc.rpcs acc
    · rw [if_neg hs]

/-- Grouping constants leaves the enum groupings untouched. -/
theorem constFold_enums : ∀ (cs : List ConstantDecl) (acc : TypeRegistry),
    (cs.foldl addConstantStep acc).enums = acc.enums := by
  intro cs
  induction cs with
  | nil => intro acc; rfl
  | cons c rest ih =>
    intro acc
    simp only [List.foldl_cons]
    rw [ih]
    simp only [addConstantStep]
    by_cases hp : c.pkgName = ""
    · rw [if_pos hp]
    · rw [if_neg hp]

/-- The enum keys of the traversal result are distinct. -/
theorem pre_enums_keys_nodup (md : MetaData) (set : List String) (fuel : Nat) :
    (((getNamedTypesPre md set fuel).enums).map Prod.fst).Nodup := by
  unfold getNamedTypesPre
  apply enumFold_keys_nodup
  rw [constFold_enums]
  cases md.authHandler with
  | none =>
    simp only
    rw [svcFold_enums]
    exact List.nodup_nil
  | some ah =>
    simp only [Visit]
    rw [(visitRun_frame fuel _ _).2.2.1, svcFold_enums]
    exact List.nodup_nil

/-- The filtering pass only rewrites the namespace lists. -/
theorem filterFold_static : ∀ (l : List (String × List EnumDecl))
    (acc : TypeRegistry),
    (l.foldl enumFilterStep acc).enums = acc.enums
    ∧ (l.foldl enumFilterStep acc).md = acc.md
    ∧ (l.foldl enumFilterStep acc).declRefs = acc.declRefs
    ∧ (l.foldl enumFilterStep acc).constants = acc.constants := by
  intro l
  induction l with
  | nil => intro acc; exact ⟨rfl, rfl, rfl, rfl⟩
  | cons p rest ih =>
    intro acc
    simp only [List.foldl_cons]
    have hstep : (enumFilterStep acc p).enums = acc.enums
        ∧ (enumFilterStep acc p).md = acc.md
        ∧ (enumFilterStep acc p).declRefs = acc.declRefs
        ∧ (enumFilterStep acc p).constants = acc.constants := by
      simp only [enumFilterStep]
      cases assocFind acc.namespaces p.1 with
      | none => exact ⟨rfl, rfl, rfl, rfl⟩
      | some decls => exact ⟨rfl, rfl, rfl, rfl⟩
    obtain ⟨e1, m1, d1, c1⟩ := ih (enumFilterStep acc p)
    exact ⟨e1.trans hstep.1, m1.trans hstep.2.1, d1.trans hstep.2.2.1,
      c1.trans hstep.2.2.2⟩

/-- The namespace list a key holds after the filtering pass: filtered by
the key's (unique) discovered enum names, untouched when the key has no
enums. -/
theorem filterFold_lookup : ∀ (l : List (String × List EnumDecl))
    (acc : TypeRegistry) (ns : String),
    (l.map Prod.fst).Nodup →
    assocFind (l.foldl enumFilterStep acc).namespaces ns =
      (match assocFind l ns with
       | some es => (assocFind acc.namespaces ns).map
           (fun decls => filterCompact (es.map (fun e => e.name)) decls)
       | none => assocFind acc.namespaces ns) := by
  intro l
  induction l with
  | nil =>
    intro acc ns _
    rfl
  | cons p rest ih =>
    intro acc ns hnd
    simp only [List.map_cons, List.nodup_cons] at hnd
    simp only [List.foldl_cons, assocFind]
    by_cases hns : p.1 = ns
    · rw [if_pos hns]
      have hrest : assocFind rest ns = none :=
        assocFind_eq_none_of_not_mem rest ns (by rw [← hns]; exact hnd.1)
      rw [ih (enumFilterStep acc p) ns hnd.2, hrest]
      simp only
      simp only [enumFilterStep]
      cases hacc : assocFind acc.namespaces p.1 with
      | none =>
        simp only
        rw [← hns, hacc]
        rfl
      | some decls =>
        simp only
        rw [← hns, assocFind_assocSet_self, hacc]
        rfl
    · rw [if_neg hns]
      rw [ih (enumFilterStep acc p) ns hnd.2]
      have hsame : assocFind (enumFilterStep acc p).namespaces ns =
          assocFind acc.namespaces ns := by
        simp only [enumFilterStep]
        cases hacc : assocFind acc.namespaces p.1 with
        | none => rfl
        | some decls =>
          simp only
          exact assocFind_assocSet_ne _ _ _ _ (fun he => hns he.symm)
      rw [hsame]

/-- Membership gives a positive containment test. -/
theorem contains_of_mem (l : List String) (a : String) (h : a ∈ l) :
    l.contains a = true := by
  induction l with
  | nil => cases h
  | cons x xs ih =>
    rcases List.mem_cons.mp h with he | hm
    · subst he
      simp [List.contains_cons]
    · simp only [List.contains_cons, Bool.or_eq_true]
      exact Or.inr (ih hm)

/-- Claim C9: after the post-traversal filtering pass, for every
namespace the plain declaration list is exactly the pre-filter list with
every declaration named like a discovered enum removed (hence a sublist,
preserving relative order), and no returned declaration shares a name
with any enum of that namespace. -/
theorem c9_enum_decl_filtering :
    ∀ (md : MetaData) (set : List String) (fuel : Nat) (ns : String),
      ((getNamedTypes md set fuel).Decls ns =
        ((getNamedTypesPre md set fuel).Decls ns).filter (fun d =>
          !(((getNamedTypes md set fuel).Enums ns).map
            (fun e => e.name)).contains d.name))
      ∧ List.Sublist ((getNamedTypes md set fuel).Decls ns)
          ((getNamedTypesPre md set fuel).Decls ns)
      ∧ (∀ d ∈ (getNamedTypes md set fuel).Decls ns,
          ∀ e ∈ (getNamedTypes md set fuel).Enums ns, d.name ≠ e.name) := by
  intro md set fuel ns
  have hnodup := pre_enums_keys_nodup md set fuel
  have hEn : (getNamedTypes md set fuel).enums =
      (getNamedTypesPre md set fuel).enums :=
    (filterFold_static _ _).1
  have hlook := filterFold_lookup (getNamedTypesPre md set fuel).enums
    (getNamedTypesPre md set fuel) ns hnodup
  have hmain : (getNamedTypes md set fuel).Decls ns =
      ((getNamedTypesPre md set fuel).Decls ns).filter (fun d =>
        !(((getNamedTypes md set fuel).Enums ns).map
          (fun e => e.name)).contains d.name) := by
    show (assocFind (applyEnumFilter (getNamedTypesPre md set fuel)).namespaces ns).getD []
      = _
    rw [show applyEnumFilter (getNamedTypesPre md set fuel) =
      ((getNamedTypesPre md set fuel).enums).foldl enumFilterStep
        (getNamedTypesPre md set fuel) from rfl]
    rw [hlook]
    have hEnumsPost : (getNamedTypes md set fuel).Enums ns =
        (assocFind (getNamedTypesPre md set fuel).enums ns).getD [] := by
      show (assocFind (getNamedTypes md set fuel).enums ns).getD [] = _
      rw [hEn]
    cases hfind : assocFind (getNamedTypesPre md set fuel).enums ns with
    | none =>
      simp only
      rw [hEnumsPost, hfind]
      show ((getNamedTypesPre md set fuel).Decls ns) = _
      simp [List.filter_eq_self]
    | some es =>
      simp only
      rw [hEnumsPost, hfind]
      show ((assocFind (getNamedTypesPre md set fuel).namespaces ns).map
        (fun decls => filterCompact (es.map (fun e => e.name)) decls)).getD [] = _
      cases hpre : assocFind (getNamedTypesPre md set fuel).namespaces ns with
      | none =>
        show ([] : List SDecl) = _
        have : (getNamedTypesPre md set fuel).Decls ns = [] := by
          show (assocFind (getNamedTypesPre md set fuel).namespaces ns).getD [] = []
          rw [hpre]
          rfl
        rw [this]
        rfl
      | some decls =>
        show filterCompact (es.map (fun e => e.name)) decls = _
        have : (getNamedTypesPre md set fuel).Decls ns = decls := by
          show (assocFind (getNamedTypesPre md set fuel).namespaces ns).getD [] = decls
          rw [hpre]
          rfl
        rw [this, filterCompact_eq_filter]
        rfl
  refine ⟨hmain, ?_, ?_⟩
  · rw [hmain]
    exact List.filter_sublist _
  · intro d hd e he
    rw [hmain] at hd
    have hp := List.of_mem_filter hd
    simp only [Bool.not_eq_true'] at hp
    intro hname
    have : (((getNamedTypes md set fuel).Enums ns).map
        (fun e => e.name)).contains d.name = true := by
      apply contains_of_mem
      rw [hname]
      exact List.mem_map_of_mem (fun e => e.name) he
    rw [this] at hp
    cases hp

/-- A successful indexed lookup is a membership. -/
theorem mem_of_getElemQ : ∀ {α : Type} (l : List α) (i : Nat) (a : α),
    l[i]? = some a → a ∈ l := by
  intro α l
  induction l with
  | nil => intro i a h; simp at h
  | cons x xs ih =>
    intro i a h
    cases i with
    | zero =>
      simp only [List.getElem?_cons_zero, Option.some.injEq] at h
      exact h ▸ List.mem_cons_self _ _
    | succ n =>
      simp only [List.getElem?_cons_succ] at h
      exact List.mem_cons_of_mem _ (ih n a h)

/-- Adding a direct edge backed by a chain preserves the edge-map
soundness invariant. -/
theorem addRef_inv {md : MetaData} {refs : Nat → Nat → Bool} {frm tgt : Nat}
    (hinv : RefsInv md refs)
    (hedge : Relation.TransGen (EdgeG md) frm tgt) :
    RefsInv md (addRef refs frm tgt) := by
  intro a b hab
  simp only [addRef, Bool.or_eq_true, Bool.and_eq_true, decide_eq_true_eq] at hab
  rcases hab with ⟨ha, hb⟩ | h
  · subst ha; subst hb; exact hedge
  · exact hinv a b h

/-- Copying the target's outbound edges into a source that reaches the
target preserves the edge-map soundness invariant. -/
theorem copyRefs_inv {md : MetaData} {refs : Nat → Nat → Bool} {frm tgt : Nat}
    (hinv : RefsInv md refs)
    (hedge : Relation.TransGen (EdgeG md) frm tgt) :
    RefsInv md (copyRefs refs frm tgt) := by
  intro a b hab
  simp only [copyRefs] at hab
  by_cases ha : a = frm
  · rw [if_pos ha] at hab
    simp only [Bool.or_eq_true] at hab
    rcases hab with h | h
    · exact hinv a b h
    · subst ha; exact hedge.trans (hinv tgt b h)
  · rw [if_neg ha] at hab
    exact hinv a b hab

/-- The traversal preserves the edge-map soundness invariant: when the
current declaration is an entry of the metadata whose body still contains
every `Named` reference of the pending job, and a decl job's declaration
is an entry of the metadata, every edge recorded by the run is backed by
a reference chain of the type graph. -/
theorem visitRun_refsInv : ∀ (fuel : Nat) (md : MetaData) (r : TypeRegistry)
    (j : VJob),
    r.md = md →
    RefsInv md r.declRefs →
    (∀ c, r.currDecl = some c → c ∈ md.decls ∧
      ∀ k, JobNamed k j → NamedIn k c.typ) →
    (∀ d, j = VJob.declJ d → d ∈ md.decls) →
    RefsInv md (visitRun fuel r j).declRefs := by
  intro fuel
  induction fuel with
  | zero => intro md r j _ hinv _ _; exact hinv
  | succ fuel ih =>
    intro md r j hmd0 hinv hcur hdecl
    obtain ⟨md1, nss, seen, refs, cur, cons, enms⟩ := r
    have hmd : md = md1 := hmd0.symm
    subst hmd
    cases j with
    | typeJ t =>
      cases t with
      | nil => exact hinv
      | builtin k => exact hinv
      | typeParameter a b => exact hinv
      | literal => exact hinv
      | named id args =>
        refine ih md ⟨md, nss, seen, refs, cur, cons, enms⟩ (VJob.namedJ id args)
          rfl hinv ?_ (fun d h => VJob.noConfusion h)
        intro c hc
        refine ⟨(hcur c hc).1, fun k hk => (hcur c hc).2 k ?_⟩
        have hk2 : k = id ∨ ∃ t2 ∈ args, NamedIn k t2 := hk
        show NamedIn k (SType.named id args)
        rcases hk2 with rfl | ⟨t2, ht2, hn2⟩
        · exact NamedIn.namedSelf k args
        · exact NamedIn.namedArg ht2 hn2
      | list e =>
        refine ih md ⟨md, nss, seen, refs, cur, cons, enms⟩ (VJob.typeJ e)
          rfl hinv ?_ (fun d h => VJob.noConfusion h)
        intro c hc
        exact ⟨(hcur c hc).1, fun k hk => (hcur c hc).2 k
          (show NamedIn k (SType.list e) from
            NamedIn.inListE (show NamedIn k e from hk))⟩
      | pointer b =>
        refine ih md ⟨md, nss, seen, refs, cur, cons, enms⟩ (VJob.typeJ b)
          rfl hinv ?_ (fun d h => VJob.noConfusion h)
        intro c hc
        exact ⟨(hcur c hc).1, fun k hk => (hcur c hc).2 k
          (show NamedIn k (SType.pointer b) from
            NamedIn.inPointer (show NamedIn k b from hk))⟩
      | option v =>
        refine ih md ⟨md, nss, seen, refs, cur, cons, enms⟩ (VJob.typeJ v)
          rfl hinv ?_ (fun d h => VJob.noConfusion h)
        intro c hc
        exact ⟨(hcur c hc).1, fun k hk => (hcur c hc).2 k
          (show NamedIn k (SType.option v) from
            NamedIn.inOption (show NamedIn k v from hk))⟩
      | config e il =>
        refine ih md ⟨md, nss, seen, refs, cur, cons, enms⟩ (VJob.typeJ e)
          rfl hinv ?_ (fun d h => VJob.noConfusion h)
        intro c hc
        exact ⟨(hcur c hc).1, fun k hk => (hcur c hc).2 k
          (show NamedIn k (SType.config e il) from
            NamedIn.inConfig (show NamedIn k e from hk))⟩
      | union ts =>
        refine ih md ⟨md, nss, seen, refs, cur, cons, enms⟩ (VJob.listJ ts)
          rfl hinv ?_ (fun d h => VJob.noConfusion h)
        intro c hc
        refine ⟨(hcur c hc).1, fun k hk => (hcur c hc).2 k ?_⟩
        have hk2 : ∃ t2 ∈ ts, NamedIn k t2 := hk
        obtain ⟨t2, ht2, hn2⟩ := hk2
        exact show NamedIn k (SType.union ts) from NamedIn.inUnion ht2 hn2
      | struct fields =>
        refine ih md ⟨md, nss, seen, refs, cur, cons, enms⟩ (VJob.fieldsJ fields)
          rfl hinv ?_ (fun d h => VJob.noConfusion h)
        intro c hc
        refine ⟨(hcur c hc).1, fun k hk => (hcur c hc).2 k ?_⟩
        have hk2 : ∃ p ∈ fields, NamedIn k p.2 := hk
        obtain ⟨p, hp, hn2⟩ := hk2
        obtain ⟨nm, t2⟩ := p
        exact show NamedIn k (SType.struct fields) from NamedIn.inField hp hn2
      | map tk tv =>
        have h1 := ih md ⟨md, nss, seen, refs, cur, cons, enms⟩ (VJob.typeJ tk)
          rfl hinv (fun c hc => ⟨(hcur c hc).1, fun k hk => (hcur c hc).2 k
            (show NamedIn k (SType.map tk tv) from
              NamedIn.inMapKey (show NamedIn k tk from hk))⟩)
          (fun d h => VJob.noConfusion h)
        have hf := visitRun_frame fuel ⟨md, nss, seen, refs, cur, cons, enms⟩
          (VJob.typeJ tk)
        have hcur2 : ∀ c, (visitRun fuel ⟨md, nss, seen, refs, cur, cons, enms⟩
            (VJob.typeJ tk)).currDecl = some c → c ∈ md.decls ∧
            ∀ k, JobNamed k (VJob.typeJ tv) → NamedIn k c.typ := by
          intro c hc
          rw [hf.2.1] at hc
          exact ⟨(hcur c hc).1, fun k hk => (hcur c hc).2 k
            (show NamedIn k (SType.map tk tv) from
              NamedIn.inMapVal (show NamedIn k tv from hk))⟩
        exact ih md (visitRun fuel ⟨md, nss, seen, refs, cur, cons, enms⟩
          (VJob.typeJ tk)) (VJob.typeJ tv) hf.1 h1 hcur2
          (fun d h => VJob.noConfusion h)
    | fieldsJ fs =>
      cases fs with
      | nil => exact hinv
      | cons f rest =>
        obtain ⟨nm, ft⟩ := f
        have h1 := ih md ⟨md, nss, seen, refs, cur, cons, enms⟩ (VJob.typeJ ft)
          rfl hinv (fun c hc => ⟨(hcur c hc).1, fun k hk => (hcur c hc).2 k
            (show ∃ p ∈ (nm, ft) :: rest, NamedIn k p.2 from
              ⟨(nm, ft), List.mem_cons_self _ _, show NamedIn k ft from hk⟩)⟩)
          (fun d h => VJob.noConfusion h)
        have hf := visitRun_frame fuel ⟨md, nss, seen, refs, cur, cons, enms⟩
          (VJob.typeJ ft)
        have hcur2 : ∀ c, (visitRun fuel ⟨md, nss, seen, refs, cur, cons, enms⟩
            (VJob.typeJ ft)).currDecl = some c → c ∈ md.decls ∧
            ∀ k, JobNamed k (VJob.fieldsJ rest) → NamedIn k c.typ := by
          intro c hc
          rw [hf.2.1] at hc
          refine ⟨(hcur c hc).1, fun k hk => (hcur c hc).2 k ?_⟩
          have hk2 : ∃ p ∈ rest, NamedIn k p.2 := hk
          obtain ⟨p, hp, hn2⟩ := hk2
          exact show ∃ p2 ∈ (nm, ft) :: rest, NamedIn k p2.2 from
            ⟨p, List.mem_cons_of_mem _ hp, hn2⟩
        exact ih md (visitRun fuel ⟨md, nss, seen, refs, cur, cons, enms⟩
          (VJob.typeJ ft)) (VJob.fieldsJ rest) hf.1 h1 hcur2
          (fun d h => VJob.noConfusion h)
    | listJ ts =>
      cases ts with
      | nil => exact hinv
      | cons t rest =>
        have h1 := ih md ⟨md, nss, seen, refs, cur, cons, enms⟩ (VJob.typeJ t)
          rfl hinv (fun c hc => ⟨(hcur c hc).1, fun k hk => (hcur c hc).2 k
            (show ∃ t2 ∈ t :: rest, NamedIn k t2 from
              ⟨t, List.mem_cons_self _ _, show NamedIn k t from hk⟩)⟩)
          (fun d h => VJob.noConfusion h)
        have hf := visitRun_frame fuel ⟨md, nss, seen, refs, cur, cons, enms⟩
          (VJob.typeJ t)
        have hcur2 : ∀ c, (visitRun fuel ⟨md, nss, seen, refs, cur, cons, enms⟩
            (VJob.typeJ t)).currDecl = some c → c ∈ md.decls ∧
            ∀ k, JobNamed k (VJob.listJ rest) → NamedIn k c.typ := by
          intro c hc
          rw [hf.2.1] at hc
          refine ⟨(hcur c hc).1, fun k hk => (hcur c hc).2 k ?_⟩
          have hk2 : ∃ t2 ∈ rest, NamedIn k t2 := hk
          obtain ⟨t2, ht2, hn2⟩ := hk2
          exact show ∃ t3 ∈ t :: rest, NamedIn k t3 from
            ⟨t2, List.mem_cons_of_mem _ ht2, hn2⟩
        exact ih md (visitRun fuel ⟨md, nss, seen, refs, cur, cons, enms⟩
          (VJob.typeJ t)) (VJob.listJ rest) hf.1 h1 hcur2
          (fun d h => VJob.noConfusion h)
    | namedJ tgt args =>
      cases cur with
      | none =>
        simp only [visitRun]
        cases hd : md.decls[tgt]? with
        | none =>
          simp only [hd]
          exact ih md ⟨md, nss, seen, refs, none, cons, enms⟩ (VJob.listJ args)
            rfl hinv (fun c hc => Option.noConfusion hc)
            (fun d h => VJob.noConfusion h)
        | some d =>
          simp only [hd]
          have h1 := ih md ⟨md, nss, seen, refs, none, cons, enms⟩ (VJob.declJ d)
            rfl hinv (fun c hc => Option.noConfusion hc)
            (fun d2 h2 => by
              injection h2 with h3
              subst h3
              exact mem_of_getElemQ _ _ _ hd)
          have hf := visitRun_frame fuel ⟨md, nss, seen, refs, none, cons, enms⟩
            (VJob.declJ d)
          have hcur2 : ∀ c, (visitRun fuel ⟨md, nss, seen, refs, none, cons, enms⟩
              (VJob.declJ d)).currDecl = some c → c ∈ md.decls ∧
              ∀ k, JobNamed k (VJob.listJ args) → NamedIn k c.typ := by
            intro c hc
            rw [hf.2.1] at hc
            exact Option.noConfusion hc
          exact ih md (visitRun fuel ⟨md, nss, seen, refs, none, cons, enms⟩
            (VJob.declJ d)) (VJob.listJ args) hf.1 h1 hcur2
            (fun d2 h => VJob.noConfusion h)
      | some c =>
        simp only [visitRun]
        have hc0 := hcur c rfl
        have hedge : Relation.TransGen (EdgeG md) c.id tgt :=
          Relation.TransGen.single
            (show EdgeG md c.id tgt from ⟨c, hc0.1, rfl, hc0.2 tgt
              (show tgt = tgt ∨ ∃ t ∈ args, NamedIn tgt t from Or.inl rfl)⟩)
        have hinv1 : RefsInv md (addRef refs c.id tgt) := addRef_inv hinv hedge
        cases hd : md.decls[tgt]? with
        | none =>
          simp only [hd]
          have hcur2 : ∀ c2, (some c : Option SDecl) = some c2 →
              c2 ∈ md.decls ∧
              ∀ k, JobNamed k (VJob.listJ args) → NamedIn k c2.typ := by
            intro c2 hc2
            injection hc2 with hc4
            subst hc4
            exact ⟨hc0.1, fun k hk => hc0.2 k
              (show k = tgt ∨ ∃ t ∈ args, NamedIn k t from Or.inr hk)⟩
          exact ih md ⟨md, nss, seen, copyRefs (addRef refs c.id tgt) c.id tgt,
            some c, cons, enms⟩ (VJob.listJ args) rfl
            (copyRefs_inv hinv1 hedge) hcur2 (fun d2 h => VJob.noConfusion h)
        | some d =>
          simp only [hd]
          have h2 := ih md ⟨md, nss, seen, addRef refs c.id tgt, some c, cons,
            enms⟩ (VJob.declJ d) rfl hinv1
            (fun c2 hc2 => by
              have hc3 : some c = some c2 := hc2
              injection hc3 with hc4
              subst hc4
              exact ⟨hc0.1, fun k hk => (show False from hk).elim⟩)
            (fun d2 h2 => by
              injection h2 with h3
              subst h3
              exact mem_of_getElemQ _ _ _ hd)
          have hf := visitRun_frame fuel ⟨md, nss, seen, addRef refs c.id tgt,
            some c, cons, enms⟩ (VJob.declJ d)
          have hcur2 : ∀ c2, (visitRun fuel ⟨md, nss, seen,
              addRef refs c.id tgt, some c, cons, enms⟩
              (VJob.declJ d)).currDecl = some c2 → c2 ∈ md.decls ∧
              ∀ k, JobNamed k (VJob.listJ args) → NamedIn k c2.typ := by
            intro c2 hc2
            rw [hf.2.1] at hc2
            have hc3 : some c = some c2 := hc2
            injection hc3 with hc4
            subst hc4
            exact ⟨hc0.1, fun k hk => hc0.2 k
              (show k = tgt ∨ ∃ t ∈ args, NamedIn k t from Or.inr hk)⟩
          exact ih md { visitRun fuel ⟨md, nss, seen, addRef refs c.id tgt,
              some c, cons, enms⟩ (VJob.declJ d) with
              declRefs := copyRefs (visitRun fuel ⟨md, nss, seen,
                addRef refs c.id tgt, some c, cons, enms⟩
                (VJob.declJ d)).declRefs c.id tgt }
            (VJob.listJ args) hf.1 (copyRefs_inv h2 hedge) hcur2
            (fun d2 h => VJob.noConfusion h)
    | declJ d =>
      simp only [visitRun]
      by_cases hseen : seen d.id = true
      · rw [if_pos hseen]
        exact hinv
      · rw [if_neg hseen]
        have hdm : d ∈ md.decls := hdecl d rfl
        have hcur2 : ∀ c2, (some d : Option SDecl) = some c2 →
            c2 ∈ md.decls ∧
            ∀ k, JobNamed k (VJob.typeJ d.typ) → NamedIn k c2.typ := by
          intro c2 hc2
          injection hc2 with hc3
          subst hc3
          exact ⟨hdm, fun k hk => hk⟩
        exact ih md ⟨md, assocAppend nss d.locPkgName d,
          fun i => i = d.id || seen i, refs, some d, cons, enms⟩
          (VJob.typeJ d.typ) rfl hinv hcur2 (fun d2 h => VJob.noConfusion h)

/-- A root visit with no current declaration keeps the metadata, keeps
the current declaration empty, and preserves the edge-map soundness
invariant. -/
theorem Visit_inv {md : MetaData} (fuel : Nat) (acc : TypeRegistry) (t : SType)
    (hmd : acc.md = md) (hcur : acc.currDecl = none)
    (hinv : RefsInv md acc.declRefs) :
    (Visit fuel acc t).md = md ∧ (Visit fuel acc t).currDecl = none
    ∧ RefsInv md (Visit fuel acc t).declRefs := by
  refine ⟨(visitRun_frame fuel acc (VJob.typeJ t)).1.trans hmd,
    (visitRun_frame fuel acc (VJob.typeJ t)).2.1.trans hcur, ?_⟩
  exact visitRun_refsInv fuel md acc (VJob.typeJ t) hmd hinv
    (fun c hc => Option.noConfusion (hcur.symm.trans hc))
    (fun d h => VJob.noConfusion h)

/-- The RPC fold keeps the metadata, keeps the current declaration empty,
and preserves the edge-map soundness invariant. -/
theorem rpcFold_inv {md : MetaData} (fuel : Nat) :
    ∀ (rpcs : List Rpc) (acc : TypeRegistry),
    acc.md = md → acc.currDecl = none → RefsInv md acc.declRefs →
    (rpcs.foldl (visitRpcStep fuel) acc).md = md
    ∧ (rpcs.foldl (visitRpcStep fuel) acc).currDecl = none
    ∧ RefsInv md (rpcs.foldl (visitRpcStep fuel) acc).declRefs := by
  intro rpcs
  induction rpcs with
  | nil => intro acc h1 h2 h3; exact ⟨h1, h2, h3⟩
  | cons rpc rest ih =>
    intro acc h1 h2 h3
    simp only [List.foldl_cons]
    have hstep : (visitRpcStep fuel acc rpc).md = md
        ∧ (visitRpcStep fuel acc rpc).currDecl = none
        ∧ RefsInv md (visitRpcStep fuel acc rpc).declRefs := by
      simp only [visitRpcStep]
      by_cases hp : rpc.accessIsPrivate = true
      · rw [if_neg (by simp [hp])]
        exact ⟨h1, h2, h3⟩
      · rw [if_pos (by simp [hp])]
        have v1 := Visit_inv fuel acc rpc.handshakeSchema h1 h2 h3
        have v2 := Visit_inv fuel _ rpc.requestSchema v1.1 v1.2.1 v1.2.2
        exact Visit_inv fuel _ rpc.responseSchema v2.1 v2.2.1 v2.2.2
    exact ih (visitRpcStep fuel acc rpc) hstep.1 hstep.2.1 hstep.2.2

/-- The service fold keeps the metadata, keeps the current declaration
empty, and preserves the edge-map soundness invariant. -/
theorem svcFold_inv {md : MetaData} (fuel : Nat) (set : List String) :
    ∀ (svcs : List Svc) (acc : TypeRegistry),
    acc.md = md → acc.currDecl = none → RefsInv md acc.declRefs →
    (svcs.foldl (visitSvcStep fuel set) acc).md = md
    ∧ (svcs.foldl (visitSvcStep fuel set) acc).currDecl = none
    ∧ RefsInv md (svcs.foldl (visitSvcStep fuel set) acc).declRefs := by
  intro svcs
  induction svcs with
  | nil => intro acc h1 h2 h3; exact ⟨h1, h2, h3⟩
  | cons svc rest ih =>
    intro acc h1 h2 h3
    simp only [List.foldl_cons]
    have hstep : (visitSvcStep fuel set acc svc).md = md
        ∧ (visitSvcStep fuel set acc svc).currDecl = none
        ∧ RefsInv md (visitSvcStep fuel set acc svc).declRefs := by
      simp only [visitSvcStep]
      by_cases hs : set.contains svc.name = true
      · rw [if_pos hs]
        exact rpcFold_inv fuel svc.rpcs acc h1 h2 h3
      · rw [if_neg hs]
        exact ⟨h1, h2, h3⟩
    exact ih (visitSvcStep fuel set acc svc) hstep.1 hstep.2.1 hstep.2.2

/-- Grouping constants leaves the edge map untouched. -/
theorem constFold_declRefs : ∀ (cs : List ConstantDecl) (acc : TypeRegistry),
    (cs.foldl addConstantStep acc).declRefs = acc.declRefs := by
  intro cs
  induction cs with
  | nil => intro acc; rfl
  | cons c rest ih =>
    intro acc
    simp only [List.foldl_cons]
    rw [ih]
    simp only [addConstantStep]
    by_cases hp : c.pkgName = ""
    · rw [if_pos hp]
    · rw [if_neg hp]

/-- Grouping enums leaves the edge map untouched. -/
theorem enumFold_declRefs : ∀ (es : List EnumDecl) (acc : TypeRegistry),
    (es.foldl addEnumStep acc).declRefs = acc.declRefs := by
  intro es
  induction es with
  | nil => intro acc; rfl
  | cons e rest ih =>
    intro acc
    simp only [List.foldl_cons]
    rw [ih]
    simp only [addEnumStep]
    by_cases hp : e.pkgName = ""
    · rw [if_pos hp]
    · rw [if_neg hp]

/-- Every edge recorded by the full traversal is backed by a reference
chain of the metadata's type graph. -/
theorem pre_refsInv (md : MetaData) (set : List String) (fuel : Nat) :
    RefsInv md (getNamedTypesPre md set fuel).declRefs := by
  unfold getNamedTypesPre
  rw [enumFold_declRefs, constFold_declRefs]
  have h0 : RefsInv md (fun _ _ => false : Nat → Nat → Bool) :=
    fun a b h => Bool.noConfusion h
  cases md.authHandler with
  | none =>
    simp only
    exact (svcFold_inv fuel set md.svcs
      ⟨md, [], fun _ => false, fun _ _ => false, none, [], []⟩ rfl rfl h0).2.2
  | some ah =>
    simp only
    have hsvc := svcFold_inv fuel set md.svcs
      ⟨md, [], fun _ => false, fun _ _ => false, none, [], []⟩ rfl rfl h0
    exact (Visit_inv fuel _ ah.params hsvc.1 hsvc.2.1 hsvc.2.2).2.2

/-- The only reference edge of the chain metadata runs from declaration 0
to declaration 1. -/
theorem mdChain_edge {i j : Nat} (h : EdgeG mdChain i j) : i = 0 ∧ j = 1 := by
  obtain ⟨d, hd, hid, hn⟩ := h
  simp [mdChain] at hd
  rcases hd with rfl | rfl
  · refine ⟨hid.symm, ?_⟩
    have hn2 : NamedIn j (SType.struct [("F", SType.named 1 [])]) := hn
    cases hn2 with
    | inField hmem hnt =>
      simp at hmem
      obtain ⟨-, h2⟩ := hmem
      subst h2
      cases hnt with
      | namedSelf _ => rfl
      | namedArg hmem2 _ => exact absurd hmem2 (List.not_mem_nil _)
  · exfalso
    have hn2 : NamedIn j (SType.struct [("G", SType.builtin 1)]) := hn
    cases hn2 with
    | inField hmem hnt =>
      simp at hmem
      obtain ⟨-, h2⟩ := hmem
      subst h2
      cases hnt

/-- The chain metadata's type graph is acyclic. -/
theorem mdChain_acyclic : Acyclic mdChain := by
  intro i htg
  have hchar : ∀ x y : Nat, Relation.TransGen (EdgeG mdChain) x y →
      x = 0 ∧ y = 1 := by
    intro x y h
    induction h with
    | single h1 => exact mdChain_edge h1
    | tail h1 h2 ihh =>
      have he := mdChain_edge h2
      exact absurd (ihh.2.symm.trans he.1) (by decide)
  have hii := hchar i i htg
  exact absurd (hii.1.symm.trans hii.2) (by decide)

/-- Claim C4: on an acyclic type graph (no declaration reachable from
itself through `Named`-type references), a full traversal records no
mutually-referential pair: `IsRecursiveRef a b` is false for every pair
of declaration ids. -/
theorem c4_acyclic_no_recursive_ref (md : MetaData) (set : List String)
    (fuel : Nat) (hacyc : Acyclic md) :
    ∀ a b, IsRecursiveRef (getNamedTypes md set fuel) a b = false := by
  intro a b
  have hpre : RefsInv md (getNamedTypes md set fuel).declRefs := by
    have he : (getNamedTypes md set fuel).declRefs
        = (getNamedTypesPre md set fuel).declRefs := by
      show ((((getNamedTypesPre md set fuel).enums).foldl enumFilterStep
        (getNamedTypesPre md set fuel))).declRefs
        = (getNamedTypesPre md set fuel).declRefs
      exact (filterFold_static _ _).2.2.1
    rw [he]
    exact pre_refsInv md set fuel
  cases hx : IsRecursiveRef (getNamedTypes md set fuel) a b with
  | false => rfl
  | true =>
    exfalso
    simp only [IsRecursiveRef, Bool.and_eq_true] at hx
    exact hacyc a ((hpre a b hx.1).trans (hpre b a hx.2))

/-- Witness for C4: on the concrete acyclic chain metadata, neither
direction pairs into a recursive reference. -/
theorem c4_acyclic_no_recursive_ref_witness :
    IsRecursiveRef (getNamedTypes mdChain ["svc"] 50) 0 1 = false
    ∧ IsRecursiveRef (getNamedTypes mdChain ["svc"] 50) 1 0 = false :=
  ⟨c4_acyclic_no_recursive_ref mdChain ["svc"] 50 mdChain_acyclic 0 1,
   c4_acyclic_no_recursive_ref mdChain ["svc"] 50 mdChain_acyclic 1 0⟩

end Afterpiece
